import Mathlib

/-!
# Netpbm: a verification development for `main.go`

Shallow embedding of the PBM reader/writer of `main.go` and proofs about it.

Modelling conventions.

* Go `int` is the 64-bit signed integer; values are Lean `Int`, and the only
  place where the range matters (`strconv.Atoi`) checks it explicitly.
* Go `string` is a Lean `String`; file contents are taken to be valid UTF-8.
* `[][]bool` is `List (List Bool)`.  Rows are allocated one `make` each and are
  only ever moved as whole slice headers, so no two rows alias and value
  semantics is adequate.
* A run-time panic (`make` length out of range, index out of range) and the fatal
  error `out of memory` are `Failure` values; `Failure.isPanic` separates them from
  returned `error` values.
* Allocation follows `runtime.makeslice` on 64-bit Linux: a length that is negative
  or needs more than `maxAlloc` bytes panics; otherwise the heap either provides the
  bytes or the program dies with `out of memory`.  Which requests the heap provides
  is a parameter (`Memory`), asked once per allocation of a call.
* `bufio.Scanner` with `bufio.ScanWords` is modelled by the texts that successive
  `Scan` calls deliver, the limit of `bufio.MaxScanTokenSize` bytes included; reads
  of an opened file do not fail.
* A path names a file through `FileSystem.resolve`, so that different spellings of a
  path can name the same file.  A file that `os.Create` has created accepts every
  write and flush.
-/

namespace Netpbm

/-! ## Failures -/

/-- Ways in which a call can fail: returned `error` values and run-time panics. -/
inductive Failure where
  /-- Error value of `os.Open`. -/
  | openError
  /-- Error value of `os.Create`. -/
  | createError
  /-- Error value `strconv.ErrSyntax` wrapped in a `*NumError`. -/
  | syntaxError
  /-- Error value `strconv.ErrRange` wrapped in a `*NumError`. -/
  | rangeError
  /-- Panic `runtime error: makeslice: len out of range`. -/
  | makeslicePanic
  /-- Panic `runtime error: index out of range`. -/
  | indexPanic
  /-- Fatal error `runtime: out of memory`. -/
  | outOfMemory
  deriving DecidableEq, Repr

/-- Whether the failure is a run-time panic or fatal error (as opposed to a returned
    `error`). -/
def Failure.isPanic : Failure → Bool
  | .makeslicePanic => true
  | .indexPanic => true
  | .outOfMemory => true
  | _ => false

/-! ## Library semantics: `strconv.Atoi`, `%d`, `bufio.ScanWords` -/

/-- Whether the character is one of `0` .. `9`. -/
def isDecimalDigit (c : Char) : Bool := decide (48 ≤ c.toNat) && decide (c.toNat ≤ 57)

/-- Value of a string of decimal digits, most significant first (`n = n*10 + d`). -/
def digitsValue (ds : List Char) : Nat :=
  ds.foldl (fun n ch => n * 10 + (ch.toNat - 48)) 0

/-- The digit loop of Go `strconv.ParseUint(s, 10, 64)`, character by character with
    the value `n` read so far: a character that is not a digit gives `ErrSyntax`, and
    the value leaving the range of `uint64` gives `ErrRange` at the digit where it
    happens, whatever follows (`1844674407370955162` is the library's `cutoff`,
    `maxUint64/10 + 1`). -/
def parseDigits : List Char → Nat → Except Failure Nat
  | [], n => .ok n
  | c :: cs, n =>
    if isDecimalDigit c = false then .error .syntaxError
    else if 1844674407370955162 ≤ n then .error .rangeError
    else if 2 ^ 64 ≤ n * 10 + (c.toNat - 48) then .error .rangeError
    else parseDigits cs (n * 10 + (c.toNat - 48))

/-- Unsigned part of `strconv.ParseInt(s, 10, 0)`: `ErrSyntax` on the empty text, else
    the digit loop. -/
def parseMagnitude (ds : List Char) : Except Failure Nat :=
  if ds.isEmpty then .error .syntaxError else parseDigits ds 0

/-- Go `strconv.Atoi` on a 64-bit platform: an optional sign, then decimal digits;
    `ErrSyntax` when the text is not of this shape, `ErrRange` when the value does
    not fit in `int` (found while reading the digits, or by the final check against
    `2^63`). -/
def Atoi (s : String) : Except Failure Int :=
  match s.data with
  | [] => .error .syntaxError
  | c :: cs =>
    let neg := decide (c.toNat = 45)
    let ds := if c.toNat = 45 ∨ c.toNat = 43 then cs else c :: cs
    match parseMagnitude ds with
    | .error e => .error e
    | .ok un =>
      if !neg && decide (2 ^ 63 ≤ un) then .error .rangeError
      else if neg && decide (2 ^ 63 < un) then .error .rangeError
      else .ok (if neg then -(un : Int) else (un : Int))

/-- Go `%d` verb on an `int`: a minus sign for negative values, then the decimal
    digits of the magnitude. -/
def formatInt (i : Int) : String :=
  if i < 0 then String.mk (Char.ofNat 45 :: Nat.toDigits 10 i.natAbs)
  else String.mk (Nat.toDigits 10 i.natAbs)

/-- Go `bufio.isSpace`: the Unicode white-space code points. -/
def isSpace (c : Char) : Bool :=
  let r := c.toNat
  decide (r = 0x20) || decide (0x09 ≤ r ∧ r ≤ 0x0d) || decide (r = 0x85) || decide (r = 0xa0)
    || decide (0x2000 ≤ r ∧ r ≤ 0x200a) || decide (r = 0x1680) || decide (r = 0x2028)
    || decide (r = 0x2029) || decide (r = 0x202f) || decide (r = 0x205f) || decide (r = 0x3000)

/-- The words `bufio.ScanWords` yields on the text: maximal runs of non-space
    characters, in order.  `acc` is the word being read, last character first. -/
def ScanWords : List Char → List Char → List String
  | [], [] => []
  | [], a :: acc => [String.mk (a :: acc).reverse]
  | c :: cs, acc =>
    if isSpace c then
      (if acc.isEmpty then ScanWords cs [] else String.mk acc.reverse :: ScanWords cs [])
    else ScanWords cs (c :: acc)

/-- Go `utf8.RuneLen`: the number of bytes of the character in UTF-8. -/
def runeLen (c : Char) : Nat :=
  if c.toNat < 0x80 then 1 else if c.toNat < 0x800 then 2 else if c.toNat < 0x10000 then 3 else 4

/-- Number of bytes of a text in UTF-8. -/
def byteLen : List Char → Nat
  | [] => 0
  | c :: cs => runeLen c + byteLen cs

/-- Go `bufio.MaxScanTokenSize`: the largest buffer of a `bufio.Scanner`, in bytes. -/
def MaxScanTokenSize : Nat := 65536

/-- The words of the text as `ScanWords` gives them, each with the white-space character
    that ends it (`none` for a last word that runs to the end of the text). -/
def wordsWithEnds : List Char → List Char → List (String × Option Char)
  | [], [] => []
  | [], a :: acc => [(String.mk (a :: acc).reverse, none)]
  | c :: cs, acc =>
    if isSpace c then
      (if acc.isEmpty then wordsWithEnds cs []
       else (String.mk acc.reverse, some c) :: wordsWithEnds cs [])
    else wordsWithEnds cs (c :: acc)

/-- Whether the scanner can deliver the word: the word and the white-space character
    that ends it must lie within a full buffer; a word that runs to the end of the
    text must leave one byte of the buffer free, because the end of the file is only
    seen by a further read. -/
def fitsBuffer (p : String × Option Char) : Bool :=
  match p.2 with
  | some c => decide (byteLen p.1.data + runeLen c ≤ MaxScanTokenSize)
  | none => decide (byteLen p.1.data + 1 ≤ MaxScanTokenSize)

/-- The characters of the text that begin within its first `n` bytes. -/
def takeBytes : Nat → List Char → List Char
  | _, [] => []
  | n, c :: cs => if n = 0 then [] else c :: takeBytes (n - runeLen c) cs

/-- The texts that successive `Scan` calls deliver (`scanner.Text()` after each call)
    until the scanner is exhausted, after which every `Scan` fails with an empty text.
    A word that fits the buffer is delivered.  At the first word that does not, `Scan`
    fails with `ErrTooLong` and an empty text, written here as the text `""` (no word
    is empty); the `Scan` after that hands out the full buffer, the first
    `MaxScanTokenSize` bytes from the start of the word, and then the scanner is
    exhausted.  Of the buffer the characters that begin in it are kept: a character cut
    by the end of the buffer is neither a digit nor white space in either form, and the
    buffer is never the first text. -/
def scannerTexts : List (String × Option Char) → List String
  | [] => []
  | p :: ps =>
    if fitsBuffer p then p.1 :: scannerTexts ps
    else ["", String.mk (takeBytes MaxScanTokenSize (p.1.data ++ p.2.toList))]

/-- State of a `bufio.Scanner` splitting on words: the texts not yet delivered and the
    token of the last `Scan`. -/
structure Scanner where
  /-- Texts still to be delivered by the coming `Scan` calls. -/
  pending : List String
  /-- Token of the most recent `Scan` (empty before the first one and after the end). -/
  token : String
  deriving DecidableEq, Repr

/-- Go `bufio.NewScanner(file)` followed by `scanner.Split(bufio.ScanWords)`. -/
def NewScanner (content : String) : Scanner :=
  ⟨scannerTexts (wordsWithEnds content.data []), ""⟩

/-- Go `scanner.Scan()`: advance to the next text; the result is `false`, with an empty
    token, at the end of input and at a word that does not fit the buffer. -/
def Scanner.Scan (s : Scanner) : Bool × Scanner :=
  match s.pending with
  | [] => (false, ⟨[], ""⟩)
  | t :: ts => (!t.isEmpty, ⟨ts, t⟩)

/-- Go `scanner.Text()`. -/
def Scanner.Text (s : Scanner) : String := s.token

/-! ## Statements and loops -/

/-- Go `runtime.maxAlloc` on 64-bit Linux: the largest number of bytes `makeslice`
    accepts. -/
def maxAlloc : Nat := 2 ^ 48

/-- What the heap provides: `mem k bytes` tells whether allocation number `k` of a call,
    asking for `bytes` bytes, gets its memory. -/
abbrev Memory := Nat → Nat → Bool

/-- A heap that provides every request. -/
def ampleMemory : Memory := fun _ _ => true

/-- The failure, if any, of Go `make([]T, n)` as allocation number `k`, for elements of
    `elemSize` bytes (`runtime.makeslice`): the panic `len out of range` when `n` is
    negative or `n*elemSize` exceeds `maxAlloc`; no failure for a slice of no bytes;
    otherwise `out of memory` unless the heap provides the bytes. -/
def makeCheck (mem : Memory) (k elemSize : Nat) (n : Int) : Option Failure :=
  if n < 0 ∨ maxAlloc < n.toNat * elemSize then some .makeslicePanic
  else if n.toNat * elemSize = 0 then none
  else if mem k (n.toNat * elemSize) = true then none
  else some .outOfMemory

/-- Go `make([]T, n)` as allocation number `k` of the call: a slice of `n` zero values,
    or the failure of `makeCheck`. -/
def make {α : Type} (mem : Memory) (k elemSize : Nat) (n : Int) (zero : α) :
    Except Failure (List α) :=
  match makeCheck mem k elemSize n with
  | some f => .error f
  | none => .ok (List.replicate n.toNat zero)

/-- Go index expression `a[i]` as a value: panics when `i` is out of range. -/
def index {α : Type} (a : List α) (i : Int) : Except Failure α :=
  if 0 ≤ i ∧ i < (a.length : Int) then
    match a.get? i.toNat with
    | some v => .ok v
    | none => .error .indexPanic
  else .error .indexPanic

/-- Go assignment `a[i] = v`: panics, writing nothing, when `i` is out of range. -/
def assign {α : Type} (a : List α) (i : Int) (v : α) : Except Failure (List α) :=
  if 0 ≤ i ∧ i < (a.length : Int) then .ok (a.set i.toNat v) else .error .indexPanic

/-- Go assignment `a[i][j] = v`. -/
def assign2 {α : Type} (a : List (List α)) (i j : Int) (v : α) :
    Except Failure (List (List α)) :=
  match index a i with
  | .error e => .error e
  | .ok row =>
    match assign row j v with
    | .error e => .error e
    | .ok row1 => assign a i row1

/-- Go `for i := start; i < start + count; i++ { body }` over a state: the state when
    the loop stops, and the panic that stopped it, if any. -/
def forLoop {σ : Type} (body : Nat → σ → σ × Option Failure) : Nat → Nat → σ → σ × Option Failure
  | 0, _, s => (s, none)
  | count + 1, i, s =>
    match body i s with
    | (s1, none) => forLoop body count (i + 1) s1
    | (s1, some f) => (s1, some f)

/-- A statement that either yields a new state or panics leaving the state as it was. -/
def atomic {σ : Type} (s : σ) (r : Except Failure σ) : σ × Option Failure :=
  match r with
  | .ok s1 => (s1, none)
  | .error f => (s, some f)

/-! ## The bitmap -/

/-- Go `type PBM struct`. -/
structure PBM where
  /-- Pixel rows, `data[y][x]`. -/
  data : List (List Bool)
  /-- Width read from the header. -/
  width : Int
  /-- Height read from the header. -/
  height : Int
  /-- First token of the file. -/
  magicNumber : String
  deriving DecidableEq, Repr

/-- A file system as seen by the program: which file a path names, which files open and
    with what content, and which paths can be created. -/
structure FileSystem where
  /-- The file a path names, as a canonical name: two paths name the same file exactly
      when they resolve alike (`image.pbm` and `./image.pbm`, a link and its target). -/
  resolve : String → String
  /-- Content of the file of that canonical name; `none` when `os.Open` fails on it. -/
  files : String → Option String
  /-- Whether `os.Create` succeeds on the path. -/
  creatable : String → Bool

/-- Content that `os.Open` of the path gives; `none` when it fails. -/
def FileSystem.content (fs : FileSystem) (path : String) : Option String :=
  fs.files (fs.resolve path)

/-- Body of the inner loop of `ReadPBM`: scan a token and store the pixel. -/
def ReadPBM.pixel (i : Nat) (j : Nat) (st : Scanner × List (List Bool)) :
    (Scanner × List (List Bool)) × Option Failure :=
  let scanner := st.1.Scan.2
  let pixelValue := scanner.Text
  match assign2 st.2 (i : Int) (j : Int) (pixelValue == "1") with
  | .ok data => ((scanner, data), none)
  | .error f => ((scanner, st.2), some f)

/-- Body of the outer loop of `ReadPBM`: allocate row `i` (allocation `i + 1` of the
    call, one byte per `bool`) and fill it. -/
def ReadPBM.row (mem : Memory) (width : Int) (i : Nat) (st : Scanner × List (List Bool)) :
    (Scanner × List (List Bool)) × Option Failure :=
  match make mem (i + 1) 1 width false with
  | .error f => (st, some f)
  | .ok row =>
    match assign st.2 (i : Int) row with
    | .error f => (st, some f)
    | .ok data => forLoop (ReadPBM.pixel i) width.toNat 0 (st.1, data)

/-- The part of `ReadPBM` after the file is open, on the file's content.  The slice of
    rows is allocation `0` of the call; a slice header takes 24 bytes. -/
def ReadPBM.scan (mem : Memory) (content : String) : Except Failure PBM :=
  let scanner := NewScanner content
  let scanner := scanner.Scan.2
  let magicNumber := scanner.Text
  let scanner := scanner.Scan.2
  match Atoi scanner.Text with
  | .error e => .error e
  | .ok width =>
    let scanner := scanner.Scan.2
    match Atoi scanner.Text with
    | .error e => .error e
    | .ok height =>
      match make mem 0 24 height ([] : List Bool) with
      | .error f => .error f
      | .ok data =>
        match forLoop (ReadPBM.row mem width) height.toNat 0 (scanner, data) with
        | (_, some f) => .error f
        | (st, none) => .ok ⟨st.2, width, height, magicNumber⟩

/-- Go `ReadPBM(filename)`: opens the fixed path `image.pbm`. -/
def ReadPBM (mem : Memory) (fs : FileSystem) (filename : String) : Except Failure PBM :=
  let _unused := filename
  match fs.content "image.pbm" with
  | none => .error .openError
  | some content => ReadPBM.scan mem content

/-- Go `pbm.Size()`. -/
def PBM.Size (pbm : PBM) : Int × Int := (pbm.width, pbm.height)

/-- Go `pbm.At(x, y)`: `pbm.data[y][x]`. -/
def PBM.At (pbm : PBM) (x y : Int) : Except Failure Bool :=
  match index pbm.data y with
  | .error e => .error e
  | .ok row => index row x

/-- Go `pbm.Set(x, y, value)`: the bitmap after the call and the panic raised, if any. -/
def PBM.Set (pbm : PBM) (x y : Int) (value : Bool) : PBM × Option Failure :=
  atomic pbm ((assign2 pbm.data y x value).map fun d => { pbm with data := d })

/-- Text that `Save` writes through its buffered writer. -/
def PBM.saveText (pbm : PBM) : String :=
  let header := pbm.magicNumber ++ "\n" ++ formatInt pbm.width ++ " " ++ formatInt pbm.height ++ "\n"
  pbm.data.foldl
    (fun out row => (row.foldl (fun out val => if val then out ++ "1 " else out ++ "0 ") out) ++ "\n")
    header

/-- Go `pbm.Save(filename)`: the file system after the call and the error returned.
    `os.Create` truncates or creates the file the path names, and the text is written
    to that file. -/
def PBM.Save (pbm : PBM) (fs : FileSystem) (filename : String) : FileSystem × Option Failure :=
  if fs.creatable filename then
    ({ fs with files := fun q =>
        if q = fs.resolve filename then some pbm.saveText else fs.files q }, none)
  else (fs, some .createError)

/-- Go `pbm.Invert()`. -/
def PBM.Invert (pbm : PBM) : PBM × Option Failure :=
  forLoop (fun i p =>
    forLoop (fun j p =>
      atomic p (do
        let row ← index p.data (i : Int)
        let v ← index row (j : Int)
        let d ← assign2 p.data (i : Int) (j : Int) (!v)
        pure { p with data := d })) p.width.toNat 0 p) pbm.height.toNat 0 pbm

/-- Go parallel assignment `a[j], a[k] = a[k], a[j]`: both reads precede both writes. -/
def swap {α : Type} (a : List α) (j k : Int) : Except Failure (List α) :=
  match index a k, index a j with
  | .ok vk, .ok vj =>
    match assign a j vk with
    | .ok a1 => assign a1 k vj
    | .error f => .error f
  | .error f, _ => .error f
  | _, .error f => .error f

/-- Go `pbm.Flip()`. -/
def PBM.Flip (pbm : PBM) : PBM × Option Failure :=
  forLoop (fun i p =>
    forLoop (fun j p =>
      atomic p (do
        let row ← index p.data (i : Int)
        let row1 ← swap row (j : Int) (p.width - (j : Int) - 1)
        let d ← assign p.data (i : Int) row1
        pure { p with data := d })) (Int.tdiv p.width 2).toNat 0 p) pbm.height.toNat 0 pbm

/-- Go `pbm.Flop()`. -/
def PBM.Flop (pbm : PBM) : PBM × Option Failure :=
  forLoop (fun i p =>
    atomic p ((swap p.data (i : Int) (p.height - (i : Int) - 1)).map
      fun d => { p with data := d })) (Int.tdiv pbm.height 2).toNat 0 pbm

/-- Go `pbm.SetMagicNumber(magicNumber)`. -/
def PBM.SetMagicNumber (pbm : PBM) (magicNumber : String) : PBM :=
  { pbm with magicNumber := magicNumber }

/-- The shape invariant: `height` rows of `width` pixels each. -/
def PBM.WellFormed (pbm : PBM) : Prop :=
  (pbm.data.length : Int) = pbm.height ∧ ∀ row ∈ pbm.data, (row.length : Int) = pbm.width

instance (pbm : PBM) : Decidable pbm.WellFormed := by
  unfold PBM.WellFormed; infer_instance

/-! ## Loop invariants -/

/-- After `k` swaps of the reversing loop over `l`, the list `m`: the outer `k` positions
    on each side are mirrored, the rest is as in `l`. -/
def MirroredEnds {α : Type} (l m : List α) (k : Nat) : Prop :=
  m.length = l.length ∧
    ∀ x, x < l.length →
      m[x]? = if x < k ∨ l.length - k ≤ x then l[l.length - 1 - x]? else l[x]?

/-- After processing the first `k` elements of `l` with `f`, the list `m`. -/
def MappedUpTo {α : Type} (f : α → α) (l m : List α) (k : Nat) : Prop :=
  m.length = l.length ∧ ∀ x, m[x]? = if x < k then (l[x]?).map f else l[x]?

/-! ## Reference serialization -/

/-- Concatenation of a list of strings, in order. -/
def concatStrings : List String → String
  | [] => ""
  | s :: ss => s ++ concatStrings ss

/-- The pixel at column `x`, row `y` as `At` reports it (`false` when `At` fails). -/
def PBM.pixel (pbm : PBM) (x y : Nat) : Bool :=
  match pbm.At (x : Int) (y : Int) with
  | .ok b => b
  | .error _ => false

/-- The serialization as the specification words it: the magic number and a newline; the
    decimal width, one space, the decimal height and a newline; then for each row
    `y = 0 .. h-1` the `w` tokens `1` (pixel true) or `0` (pixel false) for
    `x = 0 .. w-1`, each followed by one space, and a newline. -/
def referenceSerialization (m : String) (w h : Int) (pixel : Nat → Nat → Bool) : String :=
  m ++ "\n" ++ formatInt w ++ " " ++ formatInt h ++ "\n" ++
    concatStrings ((List.range h.toNat).map fun y =>
      concatStrings ((List.range w.toNat).map fun x =>
        (if pixel x y then "1" else "0") ++ " ") ++ "\n")

/-! ## Reference parse -/

/-- The integer a token denotes when it is a signed decimal numeral (an optional `+` or
    `-`, then one or more digits); `none` for every other token, the empty one included. -/
def decimalValue (s : String) : Option Int :=
  match s.data with
  | [] => none
  | c :: cs =>
    if c.toNat = 45 then
      (if !cs.isEmpty && cs.all isDecimalDigit then some (-(digitsValue cs : Int)) else none)
    else if c.toNat = 43 then
      (if !cs.isEmpty && cs.all isDecimalDigit then some (digitsValue cs : Int) else none)
    else
      (if (c :: cs).all isDecimalDigit then some (digitsValue (c :: cs) : Int) else none)

/-- The grid of `h` rows of `w` pixels that the pixel tokens denote, row-major: pixel
    `(x, y)` is true exactly when token `y*w + x` is the literal `1`; a missing token
    counts as the empty token. -/
def gridOfTokens (w h : Nat) (pixels : List String) : List (List Bool) :=
  (List.range h).map fun y => (List.range w).map fun x => pixels.getD (y * w + x) "" == "1"

/-- A file system holding the given text at `image.pbm` and nothing else, in which
    every path names a file of its own. -/
def singleFile (content : String) : FileSystem :=
  ⟨fun p => p, fun q => if q = "image.pbm" then some content else none, fun _ => true⟩

/-- A file system as `singleFile`, in which the path `./image.pbm` names the file
    `image.pbm` too. -/
def aliasedFile (content : String) : FileSystem :=
  ⟨fun p => if p = "./image.pbm" then "image.pbm" else p,
    fun q => if q = "image.pbm" then some content else none, fun _ => true⟩

/-- Whether the allocations of the grid succeed: the slice of `h` rows (allocation `0`,
    24 bytes a row) and, for each row, the slice of `w` pixels (allocation `i + 1`). -/
def gridAllocated (mem : Memory) (w h : Int) : Bool :=
  (makeCheck mem 0 24 h).isNone &&
    (List.range h.toNat).all fun i => (makeCheck mem (i + 1) 1 w).isNone

/-- What `ReadPBM` computes once the file is open, in terms of the texts the scanner
    delivers: the closed form that `ReadPBM.scan` is proved equal to.  When a row
    cannot be allocated the failure is the panic for a width out of range and
    `out of memory` otherwise, whichever the row. -/
def parseTokens (mem : Memory) (toks : List String) : Except Failure PBM :=
  match Atoi (toks.getD 1 "") with
  | .error e => .error e
  | .ok width =>
    match Atoi (toks.getD 2 "") with
    | .error e => .error e
    | .ok height =>
      match makeCheck mem 0 24 height with
      | some f => .error f
      | none =>
        if (List.range height.toNat).all fun i => (makeCheck mem (i + 1) 1 width).isNone then
          .ok ⟨gridOfTokens width.toNat height.toNat (toks.drop 3), width, height,
            toks.getD 0 ""⟩
        else if width < 0 ∨ maxAlloc < width.toNat then .error .makeslicePanic
        else .error .outOfMemory

/-- Whether the first `n` of the words fit the scanner's buffer. -/
def wordsFit : Nat → List (String × Option Char) → Bool
  | 0, _ => true
  | _ + 1, [] => true
  | n + 1, p :: ps => fitsBuffer p && wordsFit n ps

/-- Whether the first `n` words of the text fit the scanner's buffer (every word, when
    the text has no more than `n`). -/
def tokensFit (n : Nat) (content : String) : Bool :=
  wordsFit n (wordsWithEnds content.data [])

/-- Whether the stream has a token at position `i` that is a signed decimal numeral;
    `false` when the stream ends before position `i`. -/
def numericAt (toks : List String) (i : Nat) : Bool :=
  match toks[i]? with
  | some t => (decimalValue t).isSome
  | none => false

/-- A word: a non-empty string without white space, as `bufio.ScanWords` yields them. -/
def IsWord (t : String) : Prop := t.data ≠ [] ∧ ∀ c ∈ t.data, isSpace c = false

/-- The bitmap `q` has the width, height and magic number of `p`. -/
def SameHeader (p q : PBM) : Prop :=
  q.width = p.width ∧ q.height = p.height ∧ q.magicNumber = p.magicNumber

/-- Invariant of the outer loop of `ReadPBM` after `i` rows, on the scanner and the grid:
    `i * w` pixel tokens are consumed, the grid has `h` rows, the first `i` of them read
    from the tokens and the others still empty. -/
def RowsRead (sc0 : Scanner) (w : Int) (h : Nat) (i : Nat)
    (st : Scanner × List (List Bool)) : Prop :=
  st.1.pending = sc0.pending.drop (i * w.toNat) ∧ st.2.length = h ∧
    ∀ y, st.2[y]? = if y < i then
        some ((List.range w.toNat).map fun x => sc0.pending.getD (y * w.toNat + x) "" == "1")
      else (List.replicate h ([] : List Bool))[y]?

/-! ## Indexing lemmas -/

theorem index_ok {α : Type} (a : List α) (i : Nat) (h : i < a.length) :
    index a (i : Int) = .ok (a.get ⟨i, h⟩) := by
  unfold index
  have h1 : (0 : Int) ≤ (i : Int) ∧ (i : Int) < (a.length : Int) := by omega
  rw [if_pos h1]
  simp [List.getElem?_eq_getElem h]

theorem index_error {α : Type} (a : List α) (i : Int) (h : i < 0 ∨ (a.length : Int) ≤ i) :
    index a i = .error .indexPanic := by
  unfold index
  have h1 : ¬ ((0 : Int) ≤ i ∧ i < (a.length : Int)) := by omega
  rw [if_neg h1]

theorem assign_ok {α : Type} (a : List α) (i : Nat) (v : α) (h : i < a.length) :
    assign a (i : Int) v = .ok (a.set i v) := by
  unfold assign
  have h1 : (0 : Int) ≤ (i : Int) ∧ (i : Int) < (a.length : Int) := by omega
  rw [if_pos h1]
  simp

theorem assign_error {α : Type} (a : List α) (i : Int) (v : α)
    (h : i < 0 ∨ (a.length : Int) ≤ i) : assign a i v = .error .indexPanic := by
  unfold assign
  have h1 : ¬ ((0 : Int) ≤ i ∧ i < (a.length : Int)) := by omega
  rw [if_neg h1]

theorem assign2_ok {α : Type} (a : List (List α)) (i j : Nat) (v : α) (hi : i < a.length)
    (hj : j < (a.get ⟨i, hi⟩).length) :
    assign2 a (i : Int) (j : Int) v = .ok (a.set i ((a.get ⟨i, hi⟩).set j v)) := by
  unfold assign2
  rw [index_ok a i hi]
  simp only
  rw [assign_ok _ j v hj]
  simp only
  rw [assign_ok a i _ hi]

theorem assign2_error {α : Type} (a : List (List α)) (i j : Int) (v : α)
    (h : (i < 0 ∨ (a.length : Int) ≤ i) ∨
      ∀ row ∈ a, j < 0 ∨ (row.length : Int) ≤ j) :
    assign2 a i j v = .error .indexPanic := by
  unfold assign2
  by_cases hi : i < 0 ∨ (a.length : Int) ≤ i
  · rw [index_error a i hi]
  · have hi0 : 0 ≤ i := by omega
    obtain ⟨n, rfl⟩ := Int.eq_ofNat_of_zero_le hi0
    have hn : n < a.length := by omega
    rw [index_ok a n hn]
    simp only
    have hj := (h.resolve_left hi) (a.get ⟨n, hn⟩) (List.get_mem a n hn)
    rw [assign_error _ j v hj]

theorem index_of_getElem? {α : Type} (a : List α) (i : Nat) (v : α) (h : a[i]? = some v) :
    index a (i : Int) = .ok v := by
  have hlt : i < a.length := by
    by_contra hge
    rw [List.getElem?_eq_none (by omega)] at h
    cases h
  rw [index_ok a i hlt]
  rw [List.getElem?_eq_getElem hlt] at h
  simpa using h

/-! ## Pixel access -/

theorem At_of_getElem? (pbm : PBM) (x y : Nat) (row : List Bool) (b : Bool)
    (hy : pbm.data[y]? = some row) (hx : row[x]? = some b) :
    pbm.At (x : Int) (y : Int) = .ok b := by
  unfold PBM.At
  rw [index_of_getElem? _ _ _ hy]
  exact index_of_getElem? _ _ _ hx

theorem wellFormed_row_length {pbm : PBM} (hwf : pbm.WellFormed) (y : Nat)
    (hy : y < pbm.data.length) : ((pbm.data.get ⟨y, hy⟩).length : Int) = pbm.width :=
  hwf.2 _ (List.get_mem _ _ _)

theorem Set_ok (pbm : PBM) (hwf : pbm.WellFormed) (x y : Nat) (value : Bool)
    (hx : (x : Int) < pbm.width) (hy : (y : Int) < pbm.height) :
    ∃ row, pbm.data[y]? = some row ∧ x < row.length ∧
      pbm.Set (x : Int) (y : Int) value
        = ({ pbm with data := pbm.data.set y (row.set x value) }, none) := by
  have hylt : y < pbm.data.length := by have := hwf.1; omega
  have hxlt : x < (pbm.data.get ⟨y, hylt⟩).length := by
    have := wellFormed_row_length hwf y hylt; omega
  refine ⟨pbm.data.get ⟨y, hylt⟩, ?_, hxlt, ?_⟩
  · simp [List.getElem?_eq_getElem hylt]
  · unfold PBM.Set
    rw [assign2_ok pbm.data y x value hylt hxlt]
    rfl

/-- C5: on a well-formed bitmap, `At` and `Set` at a coordinate outside
    `[0,width) × [0,height)` (negative values included) stop with the index-out-of-range
    panic, `At` yielding no pixel and `Set` leaving the bitmap exactly as it was; at a
    coordinate inside the grid both complete. -/
theorem At_Set_bounds (pbm : PBM) (hwf : pbm.WellFormed) (x y : Int) (value : Bool) :
    ((x < 0 ∨ pbm.width ≤ x ∨ y < 0 ∨ pbm.height ≤ y) →
      pbm.At x y = .error .indexPanic ∧ pbm.Set x y value = (pbm, some .indexPanic)) ∧
    ((0 ≤ x ∧ x < pbm.width ∧ 0 ≤ y ∧ y < pbm.height) →
      (∃ b, pbm.At x y = .ok b) ∧ ∃ q, pbm.Set x y value = (q, none)) := by
  constructor
  · intro hout
    constructor
    · unfold PBM.At
      by_cases hy : y < 0 ∨ (pbm.data.length : Int) ≤ y
      · rw [index_error _ _ hy]
      · have hy0 : 0 ≤ y := by omega
        obtain ⟨n, rfl⟩ := Int.eq_ofNat_of_zero_le hy0
        have hn : n < pbm.data.length := by omega
        rw [index_ok _ n hn]
        simp only
        apply index_error
        have := wellFormed_row_length hwf n hn
        have := hwf.1
        omega
    · unfold PBM.Set
      rw [assign2_error]
      · rfl
      · by_cases hy : y < 0 ∨ (pbm.data.length : Int) ≤ y
        · exact Or.inl hy
        · right
          intro row hrow
          have := hwf.2 row hrow
          have := hwf.1
          omega
  · rintro ⟨hx0, hx1, hy0, hy1⟩
    obtain ⟨n, rfl⟩ := Int.eq_ofNat_of_zero_le hy0
    obtain ⟨m, rfl⟩ := Int.eq_ofNat_of_zero_le hx0
    obtain ⟨row, hrow, hm, hset⟩ := Set_ok pbm hwf m n value hx1 hy1
    exact ⟨⟨row.get ⟨m, hm⟩,
      At_of_getElem? pbm m n row _ hrow (by simp [List.getElem?_eq_getElem hm])⟩, _, hset⟩

/-- Witness for C5 on the 3x2 example bitmap at the out-of-range coordinate `(-1, 5)`. -/
theorem At_Set_bounds_witness :
    (⟨[[true, false, true], [false, true, false]], 3, 2, "P1"⟩ : PBM).WellFormed ∧
    ((((-1 : Int) < 0 ∨ (3 : Int) ≤ -1 ∨ (5 : Int) < 0 ∨ (2 : Int) ≤ 5) →
      (⟨[[true, false, true], [false, true, false]], 3, 2, "P1"⟩ : PBM).At (-1) 5
        = .error .indexPanic ∧
      (⟨[[true, false, true], [false, true, false]], 3, 2, "P1"⟩ : PBM).Set (-1) 5 true
        = (⟨[[true, false, true], [false, true, false]], 3, 2, "P1"⟩, some .indexPanic)) ∧
    (((0 : Int) ≤ -1 ∧ (-1 : Int) < 3 ∧ (0 : Int) ≤ 5 ∧ (5 : Int) < 2) →
      (∃ b, (⟨[[true, false, true], [false, true, false]], 3, 2, "P1"⟩ : PBM).At (-1) 5
        = .ok b) ∧
      ∃ q, (⟨[[true, false, true], [false, true, false]], 3, 2, "P1"⟩ : PBM).Set (-1) 5 true
        = (q, none))) :=
  ⟨by decide,
    At_Set_bounds ⟨[[true, false, true], [false, true, false]], 3, 2, "P1"⟩ (by decide) (-1) 5 true⟩

/-- C6: on a well-formed bitmap and an in-range coordinate, `Set(x, y, v)` completes,
    afterwards `At(x, y)` is `v`, `At` at every other in-range coordinate is what it was,
    and `width`, `height` and `magicNumber` are what they were. -/
theorem Set_writes_one_pixel (pbm : PBM) (hwf : pbm.WellFormed) (x y : Int) (value : Bool)
    (hx : 0 ≤ x ∧ x < pbm.width) (hy : 0 ≤ y ∧ y < pbm.height) :
    (pbm.Set x y value).2 = none ∧
    (pbm.Set x y value).1.At x y = .ok value ∧
    (∀ x1 y1 : Int, 0 ≤ x1 → x1 < pbm.width → 0 ≤ y1 → y1 < pbm.height → (x1, y1) ≠ (x, y) →
      (pbm.Set x y value).1.At x1 y1 = pbm.At x1 y1) ∧
    (pbm.Set x y value).1.width = pbm.width ∧
    (pbm.Set x y value).1.height = pbm.height ∧
    (pbm.Set x y value).1.magicNumber = pbm.magicNumber := by
  obtain ⟨n, rfl⟩ := Int.eq_ofNat_of_zero_le hy.1
  obtain ⟨m, rfl⟩ := Int.eq_ofNat_of_zero_le hx.1
  obtain ⟨row, hrow, hm, hset⟩ := Set_ok pbm hwf m n value hx.2 hy.2
  have hn : n < pbm.data.length := by
    by_contra hge
    rw [List.getElem?_eq_none (by omega)] at hrow
    cases hrow
  rw [hset]
  refine ⟨rfl, ?_, ?_, rfl, rfl, rfl⟩
  · apply At_of_getElem? _ m n (row.set m value) value
    · simp [List.getElem?_set, hn]
    · simp [List.getElem?_set, hm]
  · intro x1 y1 hx0 hx1 hy0 hy1 hne
    obtain ⟨n1, rfl⟩ := Int.eq_ofNat_of_zero_le hy0
    obtain ⟨m1, rfl⟩ := Int.eq_ofNat_of_zero_le hx0
    have hn1 : n1 < pbm.data.length := by have := hwf.1; omega
    have hm1 : m1 < (pbm.data.get ⟨n1, hn1⟩).length := by
      have := wellFormed_row_length hwf n1 hn1; omega
    have hold : pbm.At (m1 : Int) (n1 : Int)
        = .ok ((pbm.data.get ⟨n1, hn1⟩).get ⟨m1, hm1⟩) :=
      At_of_getElem? pbm m1 n1 (pbm.data.get ⟨n1, hn1⟩) _
        (by simp [List.getElem?_eq_getElem hn1]) (by simp [List.getElem?_eq_getElem hm1])
    rw [hold]
    by_cases hyy : n1 = n
    · subst hyy
      have hrow2 : pbm.data.get ⟨n1, hn1⟩ = row := by
        rw [List.getElem?_eq_getElem hn1] at hrow
        simpa using hrow
      have hxx : m1 ≠ m := by
        intro h; apply hne; rw [h]
      apply At_of_getElem? _ m1 n1 (row.set m value)
      · simp [List.getElem?_set, hn]
      · rw [List.getElem?_set_ne (Ne.symm hxx)]
        subst hrow2
        simp [List.getElem?_eq_getElem hm1]
    · apply At_of_getElem? _ m1 n1 (pbm.data.get ⟨n1, hn1⟩)
      · show (pbm.data.set n (row.set m value))[n1]? = _
        rw [List.getElem?_set_ne (Ne.symm hyy)]
        simp [List.getElem?_eq_getElem hn1]
      · simp [List.getElem?_eq_getElem hm1]

/-- Witness for C6 on the 3x2 example bitmap at `(1, 0)`. -/
theorem Set_writes_one_pixel_witness :
    ((⟨[[true, false, true], [false, true, false]], 3, 2, "P1"⟩ : PBM).Set 1 0 true).1.At 1 0
      = .ok true :=
  (Set_writes_one_pixel ⟨[[true, false, true], [false, true, false]], 3, 2, "P1"⟩
    (by decide) 1 0 true (by decide) (by decide)).2.1

/-! ## Loops -/

theorem forLoop_invariant {σ : Type} (body : Nat → σ → σ × Option Failure)
    (Inv : Nat → σ → Prop) :
    ∀ (count i : Nat) (s : σ), Inv i s →
      (∀ k t, i ≤ k → k < i + count → Inv k t → (body k t).2 = none ∧ Inv (k + 1) (body k t).1) →
      (forLoop body count i s).2 = none ∧ Inv (i + count) (forLoop body count i s).1 := by
  intro count
  induction count with
  | zero => intro i s h _; exact ⟨rfl, h⟩
  | succ c ih =>
    intro i s h hstep
    obtain ⟨h1, h2⟩ := hstep i s (Nat.le_refl i) (by omega) h
    have hb : body i s = ((body i s).1, none) := by rw [← h1]
    have hunf : forLoop body (c + 1) i s = forLoop body c (i + 1) (body i s).1 := by
      conv => lhs; unfold forLoop
      rw [hb]
    rw [hunf]
    have := ih (i + 1) (body i s).1 h2 (fun k t hk1 hk2 => hstep k t (by omega) (by omega))
    rwa [show i + (c + 1) = i + 1 + c by omega]

theorem forLoop_fails {σ : Type} (body : Nat → σ → σ × Option Failure)
    (Inv : Nat → σ → Prop) (f : Failure) :
    ∀ (count i : Nat) (s : σ), Inv i s →
      (∀ k t, i ≤ k → k < i + count → Inv k t →
        ((body k t).2 = none ∧ Inv (k + 1) (body k t).1) ∨ (body k t).2 = some f) →
      (∃ k, i ≤ k ∧ k < i + count ∧ ∀ t, (body k t).2 = some f) →
      (forLoop body count i s).2 = some f := by
  intro count
  induction count with
  | zero =>
    intro i s _ _ ⟨k, h1, h2, _⟩
    omega
  | succ c ih =>
    intro i s h hstep ⟨k, hk1, hk2, hk3⟩
    unfold forLoop
    cases hb : body i s with
    | mk s1 o =>
      cases o with
      | some g =>
        rcases hstep i s (Nat.le_refl i) (by omega) h with h1 | h1
        · rw [hb] at h1; cases h1.1
        · rw [hb] at h1; exact h1
      | none =>
        have hki : k ≠ i := by
          intro e
          have := hk3 s
          rw [e, hb] at this
          cases this
        rcases hstep i s (Nat.le_refl i) (by omega) h with h1 | h1
        · rw [hb] at h1
          exact ih (i + 1) s1 h1.2 (fun k t a b => hstep k t (by omega) (by omega))
            ⟨k, by omega, by omega, hk3⟩
        · rw [hb] at h1; cases h1

theorem toNat_tdiv_two (n : Nat) : (Int.tdiv (n : Int) 2).toNat = n / 2 := by
  have : Int.tdiv (n : Int) 2 = ((n / 2 : Nat) : Int) := rfl
  rw [this]; rfl

/-! ## Reversal by swapping ends -/

theorem swap_ok {α : Type} (a : List α) (j k : Nat) (hj : j < a.length) (hk : k < a.length) :
    swap a (j : Int) (k : Int) = .ok ((a.set j (a.get ⟨k, hk⟩)).set k (a.get ⟨j, hj⟩)) := by
  unfold swap
  rw [index_ok a k hk, index_ok a j hj]
  simp only
  rw [assign_ok a j _ hj]
  simp only
  rw [assign_ok _ k _ (by simpa using hk)]

theorem mirroredEnds_zero {α : Type} (l : List α) : MirroredEnds l l 0 := by
  refine ⟨rfl, fun x hx => ?_⟩
  have : ¬ (x < 0 ∨ l.length - 0 ≤ x) := by omega
  rw [if_neg this]

theorem mirroredEnds_step {α : Type} {l m : List α} {k : Nat} (h : MirroredEnds l m k)
    (hk : 2 * k + 2 ≤ l.length) :
    ∃ m1, swap m (k : Int) ((l.length : Int) - (k : Int) - 1) = .ok m1 ∧
      MirroredEnds l m1 (k + 1) := by
  obtain ⟨hlen, hpt⟩ := h
  have hcast : (l.length : Int) - (k : Int) - 1 = ((l.length - 1 - k : Nat) : Int) := by omega
  have hj : k < m.length := by omega
  have hk2 : l.length - 1 - k < m.length := by omega
  rw [hcast, swap_ok m k (l.length - 1 - k) hj hk2]
  refine ⟨_, rfl, ?_, ?_⟩
  · simp [hlen]
  · intro x hx
    have e1 : m[l.length - 1 - k]? = l[l.length - 1 - k]? := by
      rw [hpt _ (by omega), if_neg (by omega)]
    have e2 : m[k]? = l[k]? := by
      rw [hpt _ (by omega), if_neg (by omega)]
    have g1 : m.get ⟨l.length - 1 - k, hk2⟩ = l.get ⟨l.length - 1 - k, by omega⟩ := by
      rw [List.getElem?_eq_getElem hk2, List.getElem?_eq_getElem (by omega)] at e1
      simpa using e1
    have g2 : m.get ⟨k, hj⟩ = l.get ⟨k, by omega⟩ := by
      rw [List.getElem?_eq_getElem hj, List.getElem?_eq_getElem (by omega)] at e2
      simpa using e2
    rw [g1, g2]
    by_cases hx1 : x = l.length - 1 - k
    · subst hx1
      rw [List.getElem?_set, if_pos rfl, if_pos (by simp; omega), if_pos (by omega)]
      have : l.length - 1 - (l.length - 1 - k) = k := by omega
      rw [this, List.getElem?_eq_getElem (by omega)]
      rfl
    · rw [List.getElem?_set_ne (Ne.symm hx1)]
      by_cases hx2 : x = k
      · subst hx2
        rw [List.getElem?_set, if_pos rfl, if_pos hj, if_pos (by omega),
          List.getElem?_eq_getElem (by omega)]
        rfl
      · rw [List.getElem?_set_ne (Ne.symm hx2), hpt x hx]
        by_cases hc : x < k ∨ l.length - k ≤ x
        · rw [if_pos hc, if_pos (by omega)]
        · rw [if_neg hc, if_neg (by omega)]

theorem mirroredEnds_final {α : Type} {l m : List α} (h : MirroredEnds l m (l.length / 2)) :
    m = l.reverse := by
  obtain ⟨hlen, hpt⟩ := h
  apply List.ext_getElem?
  intro x
  by_cases hx : x < l.length
  · rw [hpt x hx, List.getElem?_reverse hx]
    by_cases hc : x < l.length / 2 ∨ l.length - l.length / 2 ≤ x
    · rw [if_pos hc]
    · rw [if_neg hc]
      have : l.length - 1 - x = x := by omega
      rw [this]
  · rw [List.getElem?_eq_none (by omega), List.getElem?_eq_none (by simp; omega)]

theorem mappedUpTo_zero {α : Type} (f : α → α) (l : List α) : MappedUpTo f l l 0 :=
  ⟨rfl, fun x => by simp⟩

theorem mappedUpTo_get {α : Type} {f : α → α} {l m : List α} {k : Nat}
    (h : MappedUpTo f l m k) (hk : k < l.length) : m[k]? = some (l.get ⟨k, hk⟩) := by
  rw [h.2 k, if_neg (by omega), List.getElem?_eq_getElem hk]
  rfl

theorem mappedUpTo_step {α : Type} {f : α → α} {l m : List α} {k : Nat}
    (h : MappedUpTo f l m k) (hk : k < l.length) :
    MappedUpTo f l (m.set k (f (l.get ⟨k, hk⟩))) (k + 1) := by
  refine ⟨by simp [h.1], fun x => ?_⟩
  by_cases hx : x = k
  · subst hx
    rw [List.getElem?_set, if_pos rfl, if_pos (by rw [h.1]; exact hk), if_pos (by omega),
      List.getElem?_eq_getElem hk]
    rfl
  · rw [List.getElem?_set_ne (Ne.symm hx), h.2 x]
    by_cases hc : x < k
    · rw [if_pos hc, if_pos (by omega)]
    · rw [if_neg hc, if_neg (by omega)]

theorem mappedUpTo_final {α : Type} {f : α → α} {l m : List α}
    (h : MappedUpTo f l m l.length) : m = l.map f := by
  apply List.ext_getElem?
  intro x
  rw [h.2 x, List.getElem?_map]
  by_cases hx : x < l.length
  · rw [if_pos hx]
  · rw [if_neg hx, List.getElem?_eq_none (by omega)]
    rfl

/-! ## The transforms in closed form -/

theorem wellFormed_height_eq {pbm : PBM} (hwf : pbm.WellFormed) :
    pbm.height = (pbm.data.length : Int) := hwf.1.symm

theorem Flop_eq (pbm : PBM) (hwf : pbm.WellFormed) :
    pbm.Flop = ({ pbm with data := pbm.data.reverse }, none) := by
  have hh := wellFormed_height_eq hwf
  have key := forLoop_invariant
    (fun i p => atomic p ((swap p.data (i : Int) (p.height - (i : Int) - 1)).map
      fun d => { p with data := d }))
    (fun k p => p.width = pbm.width ∧ p.height = pbm.height ∧
      p.magicNumber = pbm.magicNumber ∧ MirroredEnds pbm.data p.data k)
    (pbm.data.length / 2) 0 pbm ⟨rfl, rfl, rfl, mirroredEnds_zero _⟩
    (by
      intro k t _ hk ⟨h1, h2, h3, h4⟩
      obtain ⟨m1, hm1, hm2⟩ := mirroredEnds_step h4 (by omega)
      have hm3 : swap t.data (k : Int) (t.height - (k : Int) - 1) = .ok m1 := by
        rw [h2, hh]; exact hm1
      simp only [hm3, Except.map, atomic]
      exact ⟨trivial, h1, h2, h3, hm2⟩)
  have hcount : (Int.tdiv pbm.height 2).toNat = pbm.data.length / 2 := by
    rw [hh, toNat_tdiv_two]
  unfold PBM.Flop
  rw [hcount]
  obtain ⟨k1, k2, k3, k4, k5⟩ := key
  rw [Nat.zero_add] at k5
  have hdata := mirroredEnds_final k5
  refine Prod.ext ?_ k1
  cases hres : (forLoop (fun i p => atomic p ((swap p.data (i : Int) (p.height - (i : Int) - 1)).map
      fun d => { p with data := d })) (pbm.data.length / 2) 0 pbm).1 with
  | mk d w h m =>
    rw [hres] at k2 k3 k4 hdata
    simp only at k2 k3 k4 hdata
    simp only [k2, k3, k4, hdata]

theorem pbm_eq_of_fields {p q : PBM} (h1 : p.data = q.data) (h2 : p.width = q.width)
    (h3 : p.height = q.height) (h4 : p.magicNumber = q.magicNumber) : p = q := by
  cases p; cases q; simp_all

theorem getElem?_lt {α : Type} {l : List α} {i : Nat} {v : α} (h : l[i]? = some v) :
    i < l.length := by
  by_contra hge
  rw [List.getElem?_eq_none (by omega)] at h
  cases h

/-- A loop over the rows whose body replaces row `i` by `f` of it maps `f` over the grid. -/
theorem rowLoop_eq (pbm : PBM) (hwf : pbm.WellFormed) (f : List Bool → List Bool)
    (body : Nat → PBM → PBM × Option Failure)
    (hbody : ∀ (i : Nat) (p : PBM) (row : List Bool), p.width = pbm.width →
      p.data[i]? = some row → (row.length : Int) = pbm.width →
      body i p = ({ p with data := p.data.set i (f row) }, none)) :
    forLoop body pbm.height.toNat 0 pbm = ({ pbm with data := pbm.data.map f }, none) := by
  have hh := wellFormed_height_eq hwf
  have hcount : pbm.height.toNat = pbm.data.length := by rw [hh]; rfl
  rw [hcount]
  have key := forLoop_invariant body
    (fun k p => p.width = pbm.width ∧ p.height = pbm.height ∧
      p.magicNumber = pbm.magicNumber ∧ MappedUpTo f pbm.data p.data k)
    pbm.data.length 0 pbm ⟨rfl, rfl, rfl, mappedUpTo_zero _ _⟩
    (by
      intro k t _ hk ⟨h1, h2, h3, h4⟩
      have hk1 : k < pbm.data.length := by omega
      have hrow := mappedUpTo_get h4 hk1
      rw [hbody k t _ h1 hrow (wellFormed_row_length hwf k hk1)]
      exact ⟨rfl, h1, h2, h3, mappedUpTo_step h4 hk1⟩)
  obtain ⟨k1, k2, k3, k4, k5⟩ := key
  rw [Nat.zero_add] at k5
  exact Prod.ext (pbm_eq_of_fields (mappedUpTo_final k5) k2 k3 k4) k1

theorem Flip_row (p : PBM) (i : Nat) (row : List Bool) (hrow : p.data[i]? = some row)
    (hlen : (row.length : Int) = p.width) :
    forLoop (fun j p =>
      atomic p (do
        let row ← index p.data (i : Int)
        let row1 ← swap row (j : Int) (p.width - (j : Int) - 1)
        let d ← assign p.data (i : Int) row1
        pure { p with data := d })) (Int.tdiv p.width 2).toNat 0 p
      = ({ p with data := p.data.set i row.reverse }, none) := by
  have hi : i < p.data.length := getElem?_lt hrow
  have hcount : (Int.tdiv p.width 2).toNat = row.length / 2 := by
    rw [← hlen, toNat_tdiv_two]
  rw [hcount]
  have key := forLoop_invariant
    (fun j p =>
      atomic p (do
        let row ← index p.data (i : Int)
        let row1 ← swap row (j : Int) (p.width - (j : Int) - 1)
        let d ← assign p.data (i : Int) row1
        pure { p with data := d }))
    (fun k q => q.width = p.width ∧ q.height = p.height ∧
      q.magicNumber = p.magicNumber ∧
      ∃ r, MirroredEnds row r k ∧ q.data = p.data.set i r)
    (row.length / 2) 0 p
    ⟨rfl, rfl, rfl, row, mirroredEnds_zero _, by
      apply List.ext_getElem?
      intro x
      rw [List.getElem?_set]
      by_cases hx : i = x
      · subst hx; rw [if_pos rfl, if_pos hi, hrow]
      · rw [if_neg hx]⟩
    (by
      intro k t _ hk ⟨h1, h2, h3, r, h4, h5⟩
      obtain ⟨m1, hm1, hm2⟩ := mirroredEnds_step h4 (by omega)
      have hidx : index t.data (i : Int) = .ok r := by
        apply index_of_getElem?
        rw [h5, List.getElem?_set, if_pos rfl, if_pos hi]
      have hsw : swap r (k : Int) (t.width - (k : Int) - 1) = .ok m1 := by
        rw [h1, ← hlen]; exact hm1
      have hi2 : i < t.data.length := by rw [h5]; simpa using hi
      have has : assign t.data (i : Int) m1 = .ok (p.data.set i m1) := by
        rw [assign_ok _ _ _ hi2, h5, List.set_set]
      simp only [hidx, hsw, has, bind, Except.bind, pure, Except.pure, atomic]
      exact ⟨trivial, h1, h2, h3, m1, hm2, rfl⟩)
  obtain ⟨k1, k2, k3, k4, r, k5, k6⟩ := key
  rw [Nat.zero_add] at k5
  rw [mirroredEnds_final k5] at k6
  exact Prod.ext (pbm_eq_of_fields k6 k2 k3 k4) k1

theorem Flip_eq (pbm : PBM) (hwf : pbm.WellFormed) :
    pbm.Flip = ({ pbm with data := pbm.data.map List.reverse }, none) := by
  unfold PBM.Flip
  apply rowLoop_eq pbm hwf
  intro i p row hw hrow hlen
  exact Flip_row p i row hrow (by rw [hw]; exact hlen)

theorem Invert_row (p : PBM) (i : Nat) (row : List Bool) (hrow : p.data[i]? = some row)
    (hlen : (row.length : Int) = p.width) :
    forLoop (fun j p =>
      atomic p (do
        let row ← index p.data (i : Int)
        let v ← index row (j : Int)
        let d ← assign2 p.data (i : Int) (j : Int) (!v)
        pure { p with data := d })) p.width.toNat 0 p
      = ({ p with data := p.data.set i (row.map (fun b => !b)) }, none) := by
  have hi : i < p.data.length := getElem?_lt hrow
  have hcount : p.width.toNat = row.length := by rw [← hlen]; rfl
  rw [hcount]
  have key := forLoop_invariant
    (fun j p =>
      atomic p (do
        let row ← index p.data (i : Int)
        let v ← index row (j : Int)
        let d ← assign2 p.data (i : Int) (j : Int) (!v)
        pure { p with data := d }))
    (fun k q => q.width = p.width ∧ q.height = p.height ∧
      q.magicNumber = p.magicNumber ∧
      ∃ r, MappedUpTo (fun b => !b) row r k ∧ q.data = p.data.set i r)
    row.length 0 p
    ⟨rfl, rfl, rfl, row, mappedUpTo_zero _ _, by
      apply List.ext_getElem?
      intro x
      rw [List.getElem?_set]
      by_cases hx : i = x
      · subst hx; rw [if_pos rfl, if_pos hi, hrow]
      · rw [if_neg hx]⟩
    (by
      intro k t _ hk ⟨h1, h2, h3, r, h4, h5⟩
      have hk1 : k < row.length := by omega
      have hti : t.data[i]? = some r := by
        rw [h5, List.getElem?_set, if_pos rfl, if_pos hi]
      have hidx : index t.data (i : Int) = .ok r := index_of_getElem? _ _ _ hti
      have hv : index r (k : Int) = .ok (row.get ⟨k, hk1⟩) :=
        index_of_getElem? _ _ _ (mappedUpTo_get h4 hk1)
      have hi2 : i < t.data.length := getElem?_lt hti
      have hget : t.data.get ⟨i, hi2⟩ = r := by
        rw [List.getElem?_eq_getElem hi2] at hti
        simpa using hti
      have has : assign2 t.data (i : Int) (k : Int) (!(row.get ⟨k, hk1⟩))
          = .ok (p.data.set i (r.set k (!(row.get ⟨k, hk1⟩)))) := by
        rw [assign2_ok _ _ _ _ hi2 (by rw [hget, h4.1]; exact hk1), hget, h5, List.set_set]
      simp only [hidx, hv, has, bind, Except.bind, pure, Except.pure, atomic]
      exact ⟨trivial, h1, h2, h3, _, mappedUpTo_step h4 hk1, rfl⟩)
  obtain ⟨k1, k2, k3, k4, r, k5, k6⟩ := key
  rw [Nat.zero_add] at k5
  rw [mappedUpTo_final k5] at k6
  exact Prod.ext (pbm_eq_of_fields k6 k2 k3 k4) k1

theorem Invert_eq (pbm : PBM) (hwf : pbm.WellFormed) :
    pbm.Invert = ({ pbm with data := pbm.data.map (List.map fun b => !b) }, none) := by
  unfold PBM.Invert
  apply rowLoop_eq pbm hwf
  intro i p row hw hrow hlen
  exact Invert_row p i row hrow (by rw [hw]; exact hlen)

theorem wellFormed_map_rows {pbm : PBM} (hwf : pbm.WellFormed) (f : List Bool → List Bool)
    (hf : ∀ row, (f row).length = row.length) :
    PBM.WellFormed { pbm with data := pbm.data.map f } := by
  refine ⟨by simpa using hwf.1, ?_⟩
  intro row hrow
  obtain ⟨r, hr, rfl⟩ := List.mem_map.1 hrow
  rw [hf r]
  exact hwf.2 r hr

theorem wellFormed_reverse_rows {pbm : PBM} (hwf : pbm.WellFormed) :
    PBM.WellFormed { pbm with data := pbm.data.reverse } := by
  refine ⟨by simpa using hwf.1, ?_⟩
  intro row hrow
  exact hwf.2 row (List.mem_reverse.1 hrow)

/-! ## Involutions -/

/-- C8: on a well-formed bitmap `Invert` completes, and a second `Invert` completes and
    gives back the original bitmap: the same pixel grid, `width`, `height` and
    `magicNumber`. -/
theorem Invert_involution (pbm : PBM) (hwf : pbm.WellFormed) :
    pbm.Invert.2 = none ∧ pbm.Invert.1.Invert = (pbm, none) := by
  rw [Invert_eq pbm hwf]
  refine ⟨rfl, ?_⟩
  rw [Invert_eq _ (wellFormed_map_rows hwf _ (fun row => by simp))]
  refine Prod.ext (pbm_eq_of_fields ?_ rfl rfl rfl) rfl
  show (pbm.data.map (List.map fun b => !b)).map (List.map fun b => !b) = pbm.data
  rw [List.map_map]
  conv => rhs; rw [← List.map_id pbm.data]
  apply List.map_congr_left
  intro row _
  show (row.map fun b => !b).map (fun b => !b) = row
  rw [List.map_map]
  conv => rhs; rw [← List.map_id row]
  apply List.map_congr_left
  intro b _
  cases b <;> rfl

/-- Witness for C8 on the 3x2 example bitmap. -/
theorem Invert_involution_witness :
    (⟨[[true, false, true], [false, true, false]], 3, 2, "P1"⟩ : PBM).Invert.1.Invert
      = (⟨[[true, false, true], [false, true, false]], 3, 2, "P1"⟩, none) :=
  (Invert_involution ⟨[[true, false, true], [false, true, false]], 3, 2, "P1"⟩ (by decide)).2

/-- C9: on a well-formed bitmap of any width and height `Flip` completes, and a second
    `Flip` completes and gives back the original bitmap. -/
theorem Flip_involution (pbm : PBM) (hwf : pbm.WellFormed) :
    pbm.Flip.2 = none ∧ pbm.Flip.1.Flip = (pbm, none) := by
  rw [Flip_eq pbm hwf]
  refine ⟨rfl, ?_⟩
  rw [Flip_eq _ (wellFormed_map_rows hwf _ (fun row => by simp))]
  refine Prod.ext (pbm_eq_of_fields ?_ rfl rfl rfl) rfl
  show (pbm.data.map List.reverse).map List.reverse = pbm.data
  rw [List.map_map]
  conv => rhs; rw [← List.map_id pbm.data]
  apply List.map_congr_left
  intro row _
  simp [Function.comp]

/-- Witness for C9 on a 3x2 bitmap (odd width). -/
theorem Flip_involution_witness :
    (⟨[[true, false, false], [false, true, false]], 3, 2, "P1"⟩ : PBM).Flip.1.Flip
      = (⟨[[true, false, false], [false, true, false]], 3, 2, "P1"⟩, none) :=
  (Flip_involution ⟨[[true, false, false], [false, true, false]], 3, 2, "P1"⟩ (by decide)).2

/-- C10: on a well-formed bitmap of any height and width `Flop` completes, and a second
    `Flop` completes and gives back the original bitmap. -/
theorem Flop_involution (pbm : PBM) (hwf : pbm.WellFormed) :
    pbm.Flop.2 = none ∧ pbm.Flop.1.Flop = (pbm, none) := by
  rw [Flop_eq pbm hwf]
  refine ⟨rfl, ?_⟩
  rw [Flop_eq _ (wellFormed_reverse_rows hwf)]
  refine Prod.ext (pbm_eq_of_fields ?_ rfl rfl rfl) rfl
  show pbm.data.reverse.reverse = pbm.data
  exact List.reverse_reverse _

/-- Witness for C10 on a 2x3 bitmap (odd height). -/
theorem Flop_involution_witness :
    (⟨[[true, false], [false, true], [false, false]], 2, 3, "P1"⟩ : PBM).Flop.1.Flop
      = (⟨[[true, false], [false, true], [false, false]], 2, 3, "P1"⟩, none) :=
  (Flop_involution ⟨[[true, false], [false, true], [false, false]], 2, 3, "P1"⟩ (by decide)).2

/-! ## Serialization -/

theorem saveRow_eq (row : List Bool) (out : String) :
    row.foldl (fun out val => if val then out ++ "1 " else out ++ "0 ") out
      = out ++ concatStrings (row.map fun v => (if v then "1" else "0") ++ " ") := by
  induction row generalizing out with
  | nil => simp [concatStrings]
  | cons v vs ih =>
    rw [List.foldl_cons, ih, List.map_cons, concatStrings]
    cases v
    · simp only [Bool.false_eq_true, if_false, String.append_assoc]; rfl
    · simp only [if_true, String.append_assoc]; rfl

theorem saveRows_eq (data : List (List Bool)) (out : String) :
    data.foldl
      (fun out row =>
        (row.foldl (fun out val => if val then out ++ "1 " else out ++ "0 ") out) ++ "\n") out
      = out ++ concatStrings (data.map fun row =>
          concatStrings (row.map fun v => (if v then "1" else "0") ++ " ") ++ "\n") := by
  induction data generalizing out with
  | nil => simp [concatStrings]
  | cons row rows ih =>
    rw [List.foldl_cons, ih, List.map_cons, concatStrings, saveRow_eq]
    simp only [String.append_assoc]

theorem map_eq_map_range {α β : Type} (l : List α) (g : α → β) (G : Nat → β)
    (h : ∀ (y : Nat) (hy : y < l.length), g (l.get ⟨y, hy⟩) = G y) :
    l.map g = (List.range l.length).map G := by
  apply List.ext_getElem
  · simp
  · intro n h1 h2
    rw [List.getElem_map, List.getElem_map, List.getElem_range]
    exact h n (by simpa using h1)

theorem pixel_eq (pbm : PBM) (x y : Nat) (hy : y < pbm.data.length)
    (hx : x < (pbm.data.get ⟨y, hy⟩).length) :
    pbm.pixel x y = (pbm.data.get ⟨y, hy⟩).get ⟨x, hx⟩ := by
  unfold PBM.pixel
  rw [At_of_getElem? pbm x y (pbm.data.get ⟨y, hy⟩) ((pbm.data.get ⟨y, hy⟩).get ⟨x, hx⟩)
    (by simp [List.getElem?_eq_getElem hy]) (by simp [List.getElem?_eq_getElem hx])]

/-- C7: for a well-formed bitmap the text `Save` writes is the reference serialization
    (magic and newline, decimal width, space, decimal height, newline, then per row the
    tokens `1`/`0` each followed by a space, and a newline), and a `Save` to a creatable
    path leaves exactly that text in the file. -/
theorem Save_eq_reference (pbm : PBM) (hwf : pbm.WellFormed) :
    pbm.saveText = referenceSerialization pbm.magicNumber pbm.width pbm.height pbm.pixel ∧
    ∀ (fs : FileSystem) (filename : String), fs.creatable filename = true →
      (pbm.Save fs filename).2 = none ∧
      (pbm.Save fs filename).1.content filename
        = some (referenceSerialization pbm.magicNumber pbm.width pbm.height pbm.pixel) := by
  have hmain : pbm.saveText
      = referenceSerialization pbm.magicNumber pbm.width pbm.height pbm.pixel := by
    unfold PBM.saveText referenceSerialization
    simp only
    rw [saveRows_eq]
    congr 2
    have hh : pbm.height.toNat = pbm.data.length := by
      rw [wellFormed_height_eq hwf]; rfl
    rw [hh]
    apply map_eq_map_range
    intro y hy
    congr 1
    have hw : pbm.width.toNat = (pbm.data.get ⟨y, hy⟩).length := by
      rw [← wellFormed_row_length hwf y hy]; rfl
    rw [hw]
    congr 1
    apply map_eq_map_range
    intro x hx
    rw [pixel_eq pbm x y hy hx]
  refine ⟨hmain, ?_⟩
  intro fs filename hc
  unfold PBM.Save
  rw [if_pos hc]
  simp [hmain, FileSystem.content]

/-- Witness for C7: the inverted 3x2 example is written as `P1`, `3 2` and two rows of
    three tokens, each token followed by a space. -/
theorem Save_eq_reference_witness :
    (⟨[[false, true, false], [true, false, true]], 3, 2, "P1"⟩ : PBM).saveText
      = "P1\n3 2\n0 1 0 \n1 0 1 \n" :=
  (Save_eq_reference ⟨[[false, true, false], [true, false, true]], 3, 2, "P1"⟩
    (by decide)).1.trans (by decide)

/-! ## The scanner -/

theorem Scan_pending (s : Scanner) : s.Scan.2.pending = s.pending.drop 1 := by
  unfold Scanner.Scan
  cases s.pending <;> rfl

theorem Scan_Text (s : Scanner) : s.Scan.2.Text = s.pending.getD 0 "" := by
  unfold Scanner.Scan Scanner.Text
  cases s.pending <;> rfl

theorem getD_drop {α : Type} (l : List α) (k x : Nat) (d : α) :
    (l.drop k).getD x d = l.getD (k + x) d := by
  simp [List.getD_eq_getElem?_getD, List.getElem?_drop]

/-! ## The grid construction of `ReadPBM` in closed form -/

theorem ReadPBM_pixels (i n : Nat) (sc0 : Scanner) (D0 : List (List Bool))
    (hi : D0[i]? = some (List.replicate n false)) :
    ∃ sc, forLoop (ReadPBM.pixel i) n 0 (sc0, D0)
        = ((sc, D0.set i ((List.range n).map fun x => sc0.pending.getD x "" == "1")), none) ∧
      sc.pending = sc0.pending.drop n := by
  have hilt : i < D0.length := getElem?_lt hi
  have key := forLoop_invariant (ReadPBM.pixel i)
    (fun j st => st.1.pending = sc0.pending.drop j ∧
      ∃ r, st.2 = D0.set i r ∧ r.length = n ∧
        ∀ x, r[x]? = if x < j then some (sc0.pending.getD x "" == "1")
          else (List.replicate n false)[x]?)
    n 0 (sc0, D0)
    ⟨rfl, List.replicate n false, by
      apply List.ext_getElem?
      intro x
      rw [List.getElem?_set]
      by_cases hx : i = x
      · subst hx; rw [if_pos rfl, if_pos hilt, hi]
      · rw [if_neg hx], by simp, fun x => by simp⟩
    (by
      intro k t _ hk ⟨h1, r, h2, h3, h4⟩
      have hk1 : k < r.length := by omega
      have hti : t.2[i]? = some r := by
        rw [h2, List.getElem?_set, if_pos rfl, if_pos hilt]
      have hi2 : i < t.2.length := getElem?_lt hti
      have hget : t.2.get ⟨i, hi2⟩ = r := by
        rw [List.getElem?_eq_getElem hi2] at hti
        simpa using hti
      have has : ∀ v, assign2 t.2 (i : Int) (k : Int) v = .ok (D0.set i (r.set k v)) := by
        intro v
        rw [assign2_ok _ _ _ _ hi2 (by rw [hget]; exact hk1), hget, h2, List.set_set]
      unfold ReadPBM.pixel
      simp only [has]
      refine ⟨trivial, ?_, _, rfl, by simpa using h3, ?_⟩
      · rw [Scan_pending, h1, List.drop_drop]
      · intro x
        rw [Scan_Text, h1, getD_drop, Nat.add_zero]
        by_cases hx : x = k
        · subst hx
          rw [List.getElem?_set, if_pos rfl, if_pos hk1, if_pos (by omega)]
        · rw [List.getElem?_set_ne (Ne.symm hx), h4 x]
          by_cases hc : x < k
          · rw [if_pos hc, if_pos (by omega)]
          · rw [if_neg hc, if_neg (by omega)])
  obtain ⟨k1, k2, r, k3, k4, k5⟩ := key
  rw [Nat.zero_add] at k2 k5
  have hr : r = (List.range n).map fun x => sc0.pending.getD x "" == "1" := by
    apply List.ext_getElem?
    intro x
    rw [k5 x]
    by_cases hx : x < n
    · rw [if_pos hx, List.getElem?_map, List.getElem?_range hx]
      rfl
    · rw [if_neg hx, List.getElem?_eq_none (by simp; omega),
        List.getElem?_eq_none (by simp; omega)]
  refine ⟨(forLoop (ReadPBM.pixel i) n 0 (sc0, D0)).1.1, ?_, k2⟩
  refine Prod.ext (Prod.ext rfl ?_) k1
  rw [k3, hr]

theorem make_eq_ok {α : Type} (mem : Memory) (k elemSize : Nat) (n : Int) (zero : α)
    (h : makeCheck mem k elemSize n = none) :
    make mem k elemSize n zero = .ok (List.replicate n.toNat zero) := by
  unfold make
  rw [h]

theorem make_eq_error {α : Type} (mem : Memory) (k elemSize : Nat) (n : Int) (zero : α)
    (f : Failure) (h : makeCheck mem k elemSize n = some f) :
    make mem k elemSize n zero = .error f := by
  unfold make
  rw [h]

theorem ReadPBM_row_ok (mem : Memory) (w : Int) (h : Nat) (sc0 : Scanner) (k : Nat)
    (t : Scanner × List (List Bool)) (hk : k < h) (hinv : RowsRead sc0 w h k t)
    (hmk : makeCheck mem (k + 1) 1 w = none) :
    (ReadPBM.row mem w k t).2 = none ∧ RowsRead sc0 w h (k + 1) (ReadPBM.row mem w k t).1 := by
  obtain ⟨h1, h2, h3⟩ := hinv
  have hk1 : k < t.2.length := by omega
  have hD : (t.2.set k (List.replicate w.toNat false))[k]?
      = some (List.replicate w.toNat false) := by
    rw [List.getElem?_set, if_pos rfl, if_pos hk1]
  obtain ⟨sc, hsc1, hsc2⟩ := ReadPBM_pixels k w.toNat t.1 _ hD
  have hrow : ReadPBM.row mem w k t
      = ((sc, t.2.set k ((List.range w.toNat).map fun x => t.1.pending.getD x "" == "1")),
          none) := by
    unfold ReadPBM.row
    simp only [make_eq_ok mem (k + 1) 1 w false hmk, assign_ok _ _ _ hk1]
    rw [hsc1, List.set_set]
  rw [hrow]
  refine ⟨rfl, ?_, by simpa using h2, ?_⟩
  · show sc.pending = _
    rw [hsc2, h1, List.drop_drop]
    congr 1
    rw [Nat.add_mul, Nat.one_mul, Nat.add_comm]
  · intro y
    show (t.2.set k _)[y]? = _
    by_cases hy : y = k
    · subst hy
      rw [List.getElem?_set, if_pos rfl, if_pos hk1, if_pos (by omega)]
      congr 1
      apply List.map_congr_left
      intro x _
      rw [h1, getD_drop]
    · rw [List.getElem?_set_ne (Ne.symm hy), h3 y]
      by_cases hc : y < k
      · rw [if_pos hc, if_pos (by omega)]
      · rw [if_neg hc, if_neg (by omega)]

theorem ReadPBM_row_error (mem : Memory) (w : Int) (k : Nat)
    (t : Scanner × List (List Bool)) (f : Failure)
    (hmk : makeCheck mem (k + 1) 1 w = some f) :
    (ReadPBM.row mem w k t).2 = some f := by
  unfold ReadPBM.row
  simp only [make_eq_error mem (k + 1) 1 w false f hmk]

theorem rowsRead_zero (sc0 : Scanner) (w : Int) (h : Nat) :
    RowsRead sc0 w h 0 (sc0, List.replicate h []) :=
  ⟨by simp, by simp, fun y => by simp⟩

theorem ReadPBM_rows (mem : Memory) (w : Int) (h : Nat) (sc0 : Scanner)
    (hrows : ∀ i, i < h → makeCheck mem (i + 1) 1 w = none) :
    ∃ sc, forLoop (ReadPBM.row mem w) h 0 (sc0, List.replicate h [])
        = ((sc, gridOfTokens w.toNat h sc0.pending), none) := by
  have key := forLoop_invariant (ReadPBM.row mem w) (RowsRead sc0 w h)
    h 0 (sc0, List.replicate h []) (rowsRead_zero sc0 w h)
    (fun k t _ hk hinv => ReadPBM_row_ok mem w h sc0 k t (by omega) hinv (hrows k (by omega)))
  obtain ⟨k1, _, k3, k4⟩ := key
  rw [Nat.zero_add] at k4
  refine ⟨(forLoop (ReadPBM.row mem w) h 0 (sc0, List.replicate h [])).1.1, ?_⟩
  refine Prod.ext (Prod.ext rfl ?_) k1
  show _ = gridOfTokens w.toNat h sc0.pending
  apply List.ext_getElem?
  intro y
  rw [k4 y]
  unfold gridOfTokens
  by_cases hy : y < h
  · rw [if_pos hy, List.getElem?_map, List.getElem?_range hy]
    rfl
  · rw [if_neg hy, List.getElem?_eq_none (by simp; omega),
      List.getElem?_eq_none (by simp; omega)]

theorem makeCheck_row_failure (mem : Memory) (k : Nat) (w : Int) :
    makeCheck mem k 1 w = none ∨
    makeCheck mem k 1 w
      = some (if w < 0 ∨ maxAlloc < w.toNat then .makeslicePanic else .outOfMemory) := by
  unfold makeCheck
  rw [Nat.mul_one]
  by_cases h1 : w < 0 ∨ maxAlloc < w.toNat
  · right; rw [if_pos h1, if_pos h1]
  · rw [if_neg h1, if_neg h1]
    by_cases h2 : w.toNat = 0
    · left; rw [if_pos h2]
    · rw [if_neg h2]
      by_cases h3 : mem k w.toNat = true
      · left; rw [if_pos h3]
      · right; rw [if_neg h3]

theorem ReadPBM_rows_fail (mem : Memory) (w : Int) (h : Nat) (sc0 : Scanner)
    (hbad : ∃ i, i < h ∧ makeCheck mem (i + 1) 1 w ≠ none) :
    (forLoop (ReadPBM.row mem w) h 0 (sc0, List.replicate h [])).2
      = some (if w < 0 ∨ maxAlloc < w.toNat then .makeslicePanic else .outOfMemory) := by
  apply forLoop_fails (ReadPBM.row mem w) (RowsRead sc0 w h) _ h 0 _ (rowsRead_zero sc0 w h)
  · intro k t _ hk hinv
    rcases makeCheck_row_failure mem (k + 1) w with hm | hm
    · exact Or.inl (ReadPBM_row_ok mem w h sc0 k t (by omega) hinv hm)
    · exact Or.inr (ReadPBM_row_error mem w k t _ hm)
  · obtain ⟨i, hi, hne⟩ := hbad
    refine ⟨i, by omega, by omega, fun t => ?_⟩
    rcases makeCheck_row_failure mem (i + 1) w with hm | hm
    · exact absurd hm hne
    · exact ReadPBM_row_error mem w i t _ hm

/-- The function `ReadPBM.scan` computes `parseTokens` of the texts the scanner
    delivers on the file. -/
theorem scan_eq_parseTokens (mem : Memory) (content : String) :
    ReadPBM.scan mem content
      = parseTokens mem (scannerTexts (wordsWithEnds content.data [])) := by
  unfold ReadPBM.scan parseTokens
  simp only [Scan_Text, Scan_pending, NewScanner, getD_drop, Nat.add_zero]
  cases hw : Atoi ((scannerTexts (wordsWithEnds content.data [])).getD 1 "") with
  | error e => rfl
  | ok width =>
    simp only
    cases hh : Atoi ((scannerTexts (wordsWithEnds content.data [])).getD 2 "") with
    | error e => rfl
    | ok height =>
      simp only
      cases hm : makeCheck mem 0 24 height with
      | some f =>
        rw [make_eq_error mem 0 24 height _ f hm]
      | none =>
        rw [make_eq_ok mem 0 24 height _ hm]
        simp only
        by_cases hall : ((List.range height.toNat).all fun i =>
            (makeCheck mem (i + 1) 1 width).isNone) = true
        · rw [if_pos hall]
          have hrows : ∀ i, i < height.toNat → makeCheck mem (i + 1) 1 width = none := by
            intro i hi
            have := List.all_eq_true.1 hall i (List.mem_range.2 hi)
            simpa using this
          obtain ⟨sc, hsc⟩ := ReadPBM_rows mem width height.toNat
            (((NewScanner content).Scan.2).Scan.2).Scan.2 hrows
          simp only [NewScanner] at hsc
          rw [hsc]
          simp only [Scan_pending, List.drop_drop]
        · rw [if_neg hall]
          have hbad : ∃ i, i < height.toNat ∧ makeCheck mem (i + 1) 1 width ≠ none := by
            by_contra hcon
            apply hall
            apply List.all_eq_true.2
            intro i hi
            have hi1 := List.mem_range.1 hi
            by_cases hn : makeCheck mem (i + 1) 1 width = none
            · rw [hn]; rfl
            · exact absurd ⟨i, hi1, hn⟩ hcon
          have hfail := ReadPBM_rows_fail mem width height.toNat
            (((NewScanner content).Scan.2).Scan.2).Scan.2 hbad
          simp only [NewScanner] at hfail
          cases hres : forLoop (ReadPBM.row mem width) height.toNat 0
              ((((⟨scannerTexts (wordsWithEnds content.data []), ""⟩ : Scanner).Scan.2).Scan.2).Scan.2,
                List.replicate height.toNat []) with
          | mk st o =>
            rw [hres] at hfail
            simp only at hfail
            subst hfail
            simp only
            by_cases hc : width < 0 ∨ maxAlloc < width.toNat
            · rw [if_pos hc, if_pos hc]
            · rw [if_neg hc, if_neg hc]

/-! ## Decimal numerals -/

theorem digitChar_toNat (k : Nat) (hk : k < 10) :
    (Nat.digitChar k).toNat - 48 = k ∧ isDecimalDigit (Nat.digitChar k) = true := by
  interval_cases k <;> exact ⟨by decide, by decide⟩

theorem toDigitsCore_append (fuel n : Nat) (ds : List Char) :
    Nat.toDigitsCore 10 fuel n ds = Nat.toDigitsCore 10 fuel n [] ++ ds := by
  induction fuel generalizing n ds with
  | zero => simp [Nat.toDigitsCore]
  | succ f ih =>
    simp only [Nat.toDigitsCore]
    by_cases h0 : n / 10 = 0
    · simp [h0]
    · simp only [h0, if_false]
      rw [ih (n / 10) (Nat.digitChar (n % 10) :: ds), ih (n / 10) [Nat.digitChar (n % 10)]]
      simp

theorem toDigitsCore_spec (fuel n : Nat) (h : n < fuel) :
    digitsValue (Nat.toDigitsCore 10 fuel n []) = n ∧
    (Nat.toDigitsCore 10 fuel n []).all isDecimalDigit = true ∧
    Nat.toDigitsCore 10 fuel n [] ≠ [] := by
  induction fuel generalizing n with
  | zero => omega
  | succ f ih =>
    have hd := digitChar_toNat (n % 10) (Nat.mod_lt _ (by omega))
    simp only [Nat.toDigitsCore]
    by_cases h0 : n / 10 = 0
    · simp only [h0, if_true]
      refine ⟨?_, by simp [hd.2], by simp⟩
      simp only [digitsValue, List.foldl_cons, List.foldl_nil]
      rw [hd.1]
      omega
    · simp only [h0, if_false]
      rw [toDigitsCore_append]
      obtain ⟨i1, i2, _⟩ := ih (n / 10) (by omega)
      refine ⟨?_, by simp [i2, hd.2], by simp⟩
      unfold digitsValue at i1 ⊢
      rw [List.foldl_append, i1]
      simp only [List.foldl_cons, List.foldl_nil]
      rw [hd.1]
      omega

theorem toDigits_spec (n : Nat) :
    digitsValue (Nat.toDigits 10 n) = n ∧ (Nat.toDigits 10 n).all isDecimalDigit = true ∧
    Nat.toDigits 10 n ≠ [] :=
  toDigitsCore_spec (n + 1) n (by omega)

theorem digits_foldl_ge (ds : List Char) (n : Nat) :
    n ≤ ds.foldl (fun n ch => n * 10 + (ch.toNat - 48)) n := by
  induction ds generalizing n with
  | nil => exact Nat.le_refl n
  | cons c cs ih =>
    rw [List.foldl_cons]
    exact Nat.le_trans (by omega) (ih (n * 10 + (c.toNat - 48)))

theorem parseDigits_digits (ds : List Char) (n : Nat) (hn : n < 2 ^ 64)
    (hall : ds.all isDecimalDigit = true) :
    parseDigits ds n
      = if ds.foldl (fun n ch => n * 10 + (ch.toNat - 48)) n < 2 ^ 64
        then .ok (ds.foldl (fun n ch => n * 10 + (ch.toNat - 48)) n)
        else .error .rangeError := by
  induction ds generalizing n with
  | nil =>
    unfold parseDigits
    rw [List.foldl_nil, if_pos hn]
  | cons c cs ih =>
    have hc : isDecimalDigit c = true := by
      have := List.all_eq_true.1 hall c (by simp)
      exact this
    have hcs : cs.all isDecimalDigit = true := by
      apply List.all_eq_true.2
      intro d hd
      exact List.all_eq_true.1 hall d (by simp [hd])
    have hge := digits_foldl_ge cs (n * 10 + (c.toNat - 48))
    unfold parseDigits
    rw [List.foldl_cons, if_neg (by rw [hc]; decide)]
    by_cases h1 : 1844674407370955162 ≤ n
    · rw [if_pos h1, if_neg (by omega)]
    · rw [if_neg h1]
      by_cases h2 : 2 ^ 64 ≤ n * 10 + (c.toNat - 48)
      · rw [if_pos h2, if_neg (by omega)]
      · rw [if_neg h2]
        exact ih (n * 10 + (c.toNat - 48)) (by omega) hcs

theorem parseDigits_error_kind (ds : List Char) (n : Nat) (e : Failure)
    (h : parseDigits ds n = .error e) : e = .syntaxError ∨ e = .rangeError := by
  induction ds generalizing n with
  | nil => unfold parseDigits at h; cases h
  | cons c cs ih =>
    unfold parseDigits at h
    by_cases h0 : isDecimalDigit c = false
    · rw [if_pos h0] at h; cases h; exact Or.inl rfl
    · rw [if_neg h0] at h
      by_cases h1 : 1844674407370955162 ≤ n
      · rw [if_pos h1] at h; cases h; exact Or.inr rfl
      · rw [if_neg h1] at h
        by_cases h2 : 2 ^ 64 ≤ n * 10 + (c.toNat - 48)
        · rw [if_pos h2] at h; cases h; exact Or.inr rfl
        · rw [if_neg h2] at h
          exact ih _ h

theorem parseDigits_not_digits (ds : List Char) (n : Nat)
    (hall : ¬ ds.all isDecimalDigit = true) : ∃ e, parseDigits ds n = .error e := by
  induction ds generalizing n with
  | nil => simp at hall
  | cons c cs ih =>
    unfold parseDigits
    by_cases h0 : isDecimalDigit c = false
    · rw [if_pos h0]; exact ⟨_, rfl⟩
    · rw [if_neg h0]
      by_cases h1 : 1844674407370955162 ≤ n
      · rw [if_pos h1]; exact ⟨_, rfl⟩
      · rw [if_neg h1]
        by_cases h2 : 2 ^ 64 ≤ n * 10 + (c.toNat - 48)
        · rw [if_pos h2]; exact ⟨_, rfl⟩
        · rw [if_neg h2]
          apply ih
          intro hcs
          apply hall
          simp only [List.all_cons, hcs, Bool.and_true]
          simpa using h0

theorem parseMagnitude_digits (ds : List Char) (hne : ds.isEmpty = false)
    (hall : ds.all isDecimalDigit = true) :
    parseMagnitude ds
      = if digitsValue ds < 2 ^ 64 then .ok (digitsValue ds) else .error .rangeError := by
  unfold parseMagnitude digitsValue
  rw [hne]
  simp only [Bool.false_eq_true, if_false]
  exact parseDigits_digits ds 0 (by decide) hall

theorem parseMagnitude_not_digits (ds : List Char)
    (h : ds.isEmpty = true ∨ ¬ ds.all isDecimalDigit = true) :
    ∃ e, parseMagnitude ds = .error e ∧ (e = .syntaxError ∨ e = .rangeError) := by
  unfold parseMagnitude
  by_cases he : ds.isEmpty = true
  · rw [if_pos he]; exact ⟨_, rfl, Or.inl rfl⟩
  · rw [if_neg he]
    obtain ⟨e, hE⟩ := parseDigits_not_digits ds 0 (h.resolve_left he)
    exact ⟨e, hE, parseDigits_error_kind ds 0 e hE⟩

theorem parseMagnitude_toDigits (n : Nat) (hn : n < 2 ^ 64) :
    parseMagnitude (Nat.toDigits 10 n) = .ok n := by
  obtain ⟨h1, h2, h3⟩ := toDigits_spec n
  rw [parseMagnitude_digits _ (by
    cases hd : Nat.toDigits 10 n with
    | nil => exact absurd hd h3
    | cons c cs => rfl) h2, h1, if_pos hn]

theorem toDigits_head (n : Nat) :
    ∃ c cs, Nat.toDigits 10 n = c :: cs ∧ isDecimalDigit c = true := by
  obtain ⟨_, h2, h3⟩ := toDigits_spec n
  cases hd : Nat.toDigits 10 n with
  | nil => exact absurd hd h3
  | cons c cs =>
    rw [hd] at h2
    exact ⟨c, cs, rfl, by simp at h2; exact h2.1⟩

theorem isDecimalDigit_bounds {c : Char} (h : isDecimalDigit c = true) :
    48 ≤ c.toNat ∧ c.toNat ≤ 57 := by
  unfold isDecimalDigit at h
  simpa using h

/-- Go `strconv.Atoi` reads back what `%d` prints, for every value of the `int` range. -/
theorem Atoi_formatInt (i : Int) (hlo : -(2 ^ 63 : Int) ≤ i) (hhi : i < 2 ^ 63) :
    Atoi (formatInt i) = .ok i := by
  have hpm0 := parseMagnitude_toDigits i.natAbs (by omega)
  unfold formatInt
  by_cases hneg : i < 0
  · rw [if_pos hneg]
    unfold Atoi
    have h45 : (Char.ofNat 45).toNat = 45 := by decide
    simp only [h45, true_or, if_true, hpm0, decide_True]
    have h1 : ¬ (2 ^ 63 < i.natAbs) := by omega
    simp only [h1, decide_False, Bool.not_true, Bool.false_and, Bool.and_false,
      Bool.false_eq_true, if_false, if_true]
    congr 1
    omega
  · rw [if_neg hneg]
    unfold Atoi
    obtain ⟨c, cs, hcs, hc⟩ := toDigits_head i.natAbs
    have hb := isDecimalDigit_bounds hc
    have hpm := hpm0
    rw [hcs] at hpm
    simp only [hcs]
    rw [if_neg (by omega), hpm]
    have h1 : ¬ (2 ^ 63 ≤ i.natAbs) := by omega
    have h2 : ¬ (c.toNat = 45) := by omega
    simp only [h1, h2, decide_False, Bool.not_false, Bool.and_false, Bool.false_and,
      Bool.false_eq_true, if_false]
    congr 1
    omega

theorem Atoi_sign (neg : Bool) (ds : List Char) (dv : Nat)
    (hne : ds.isEmpty = false) (hall : ds.all isDecimalDigit = true)
    (hdv : digitsValue ds = dv) :
    (match parseMagnitude ds with
      | .error e => (.error e : Except Failure Int)
      | .ok un =>
        if !neg && decide (2 ^ 63 ≤ un) then .error .rangeError
        else if neg && decide (2 ^ 63 < un) then .error .rangeError
        else .ok (if neg then -(un : Int) else (un : Int)))
      = (if (if neg then -(dv : Int) else (dv : Int)) < -(2 ^ 63 : Int) ∨
            (2 ^ 63 : Int) ≤ (if neg then -(dv : Int) else (dv : Int))
          then .error .rangeError
          else .ok (if neg then -(dv : Int) else (dv : Int))) := by
  rw [parseMagnitude_digits ds hne hall, hdv]
  by_cases hbig : dv < 2 ^ 64
  · rw [if_pos hbig]
    simp only
    cases neg
    · simp only [Bool.not_false, Bool.true_and, Bool.false_and, Bool.false_eq_true, if_false]
      by_cases hr : 2 ^ 63 ≤ dv
      · simp only [hr, decide_True, if_true]
        rw [if_pos (by omega)]
      · simp only [hr, decide_False, Bool.false_eq_true, if_false]
        rw [if_neg (by omega)]
    · simp only [Bool.not_true, Bool.false_and, Bool.true_and, Bool.false_eq_true, if_false,
        if_true]
      by_cases hr : 2 ^ 63 < dv
      · simp only [hr, decide_True, if_true]
        rw [if_pos (by omega)]
      · simp only [hr, decide_False, Bool.false_eq_true, if_false]
        rw [if_neg (by omega)]
  · rw [if_neg hbig]
    simp only
    cases neg
    · simp only [Bool.false_eq_true, if_false]
      rw [if_pos (by omega)]
    · simp only [if_true]
      rw [if_pos (by omega)]

/-- Go `strconv.Atoi` on a signed decimal numeral: its value when it is in the range of
    `int`, `ErrRange` otherwise. -/
theorem Atoi_of_decimalValue_some {s : String} {v : Int} (h : decimalValue s = some v) :
    Atoi s = if v < -(2 ^ 63 : Int) ∨ (2 ^ 63 : Int) ≤ v then .error .rangeError else .ok v := by
  unfold decimalValue at h
  unfold Atoi
  cases hs : s.data with
  | nil => rw [hs] at h; cases h
  | cons c cs =>
    rw [hs] at h
    simp only at h ⊢
    by_cases h45 : c.toNat = 45
    · rw [if_pos h45] at h
      by_cases hd : (!cs.isEmpty && cs.all isDecimalDigit) = true
      · rw [if_pos hd] at h
        cases h
        have hd1 : cs.isEmpty = false ∧ cs.all isDecimalDigit = true := by simpa using hd
        have := Atoi_sign true cs (digitsValue cs) hd1.1 hd1.2 rfl
        simp only [h45, true_or, if_true, decide_True]
        simpa using this
      · rw [if_neg hd] at h; cases h
    · rw [if_neg h45] at h
      by_cases h43 : c.toNat = 43
      · rw [if_pos h43] at h
        by_cases hd : (!cs.isEmpty && cs.all isDecimalDigit) = true
        · rw [if_pos hd] at h
          cases h
          have hd1 : cs.isEmpty = false ∧ cs.all isDecimalDigit = true := by simpa using hd
          have := Atoi_sign false cs (digitsValue cs) hd1.1 hd1.2 rfl
          have hne : ¬ ((43 : Nat) = 45) := by decide
          simp only [h43, hne, or_true, if_true, decide_False]
          simpa using this
        · rw [if_neg hd] at h; cases h
      · rw [if_neg h43] at h
        by_cases hd : (c :: cs).all isDecimalDigit = true
        · rw [if_pos hd] at h
          cases h
          have := Atoi_sign false (c :: cs) (digitsValue (c :: cs)) rfl hd rfl
          simp only [h45, h43, or_self, if_false, decide_False]
          simpa using this
        · rw [if_neg hd] at h; cases h

/-- Go `strconv.Atoi` on a token that is not a signed decimal numeral: an error value,
    `ErrSyntax` or (when the digits before the offending character already leave the
    range) `ErrRange`. -/
theorem Atoi_of_decimalValue_none {s : String} (h : decimalValue s = none) :
    ∃ e, Atoi s = .error e ∧ (e = .syntaxError ∨ e = .rangeError) := by
  unfold decimalValue at h
  unfold Atoi
  cases hs : s.data with
  | nil => exact ⟨_, rfl, Or.inl rfl⟩
  | cons c cs =>
    rw [hs] at h
    simp only at h ⊢
    by_cases h45 : c.toNat = 45
    · rw [if_pos h45] at h
      by_cases hd : (!cs.isEmpty && cs.all isDecimalDigit) = true
      · rw [if_pos hd] at h; cases h
      · have hbad : cs.isEmpty = true ∨ ¬ cs.all isDecimalDigit = true := by
          by_cases he : cs.isEmpty = true
          · exact Or.inl he
          · right
            intro hall
            apply hd
            simp [he, hall]
        obtain ⟨e, hE, hk⟩ := parseMagnitude_not_digits cs hbad
        simp only [h45, true_or, if_true, hE]
        exact ⟨e, rfl, hk⟩
    · rw [if_neg h45] at h
      by_cases h43 : c.toNat = 43
      · rw [if_pos h43] at h
        by_cases hd : (!cs.isEmpty && cs.all isDecimalDigit) = true
        · rw [if_pos hd] at h; cases h
        · have hbad : cs.isEmpty = true ∨ ¬ cs.all isDecimalDigit = true := by
            by_cases he : cs.isEmpty = true
            · exact Or.inl he
            · right
              intro hall
              apply hd
              simp [he, hall]
          obtain ⟨e, hE, hk⟩ := parseMagnitude_not_digits cs hbad
          simp only [h43, or_true, if_true, hE]
          exact ⟨e, rfl, hk⟩
      · rw [if_neg h43] at h
        by_cases hd : (c :: cs).all isDecimalDigit = true
        · rw [if_pos hd] at h; cases h
        · obtain ⟨e, hE, hk⟩ := parseMagnitude_not_digits (c :: cs) (Or.inr hd)
          simp only [h45, h43, or_self, if_false, hE]
          exact ⟨e, rfl, hk⟩

theorem Atoi_ok_decimalValue {s : String} {v : Int} (h : Atoi s = .ok v) :
    decimalValue s = some v ∧ -(2 ^ 63 : Int) ≤ v ∧ v < 2 ^ 63 := by
  cases hd : decimalValue s with
  | none =>
    obtain ⟨e, hE, _⟩ := Atoi_of_decimalValue_none hd
    rw [hE] at h; cases h
  | some u =>
    rw [Atoi_of_decimalValue_some hd] at h
    by_cases hr : u < -(2 ^ 63 : Int) ∨ (2 ^ 63 : Int) ≤ u
    · rw [if_pos hr] at h; cases h
    · rw [if_neg hr] at h
      cases h
      exact ⟨rfl, by omega, by omega⟩

theorem Atoi_range {s : String} {v : Int} (h : Atoi s = .ok v) :
    -(2 ^ 63 : Int) ≤ v ∧ v < 2 ^ 63 :=
  (Atoi_ok_decimalValue h).2

theorem Atoi_of_decimalValue {s : String} {v : Int} (h : decimalValue s = some v)
    (hlo : -(2 ^ 63 : Int) ≤ v) (hhi : v < 2 ^ 63) : Atoi s = .ok v := by
  rw [Atoi_of_decimalValue_some h, if_neg (by omega)]

theorem Atoi_error_not_panic {s : String} {e : Failure} (h : Atoi s = .error e) :
    e = .syntaxError ∨ e = .rangeError := by
  cases hd : decimalValue s with
  | none =>
    obtain ⟨e1, hE, hk⟩ := Atoi_of_decimalValue_none hd
    rw [hE] at h
    cases h
    exact hk
  | some u =>
    rw [Atoi_of_decimalValue_some hd] at h
    by_cases hr : u < -(2 ^ 63 : Int) ∨ (2 ^ 63 : Int) ≤ u
    · rw [if_pos hr] at h; cases h; exact Or.inr rfl
    · rw [if_neg hr] at h; cases h

/-- Digits that overflow before a character that is not a digit give `ErrRange`, and a
    character that is not a digit met first gives `ErrSyntax`. -/
theorem Atoi_range_before_syntax :
    Atoi "99999999999999999999x" = .error .rangeError ∧
    Atoi "9x9999999999999999999" = .error .syntaxError ∧
    Atoi "-9223372036854775808" = .ok (-9223372036854775808) ∧
    Atoi "9223372036854775808" = .error .rangeError :=
  ⟨rfl, rfl, rfl, rfl⟩

/-! ## The texts the scanner delivers -/

theorem wordsWithEnds_fst (cs acc : List Char) :
    (wordsWithEnds cs acc).map Prod.fst = ScanWords cs acc := by
  induction cs generalizing acc with
  | nil => cases acc <;> rfl
  | cons c cs ih =>
    unfold wordsWithEnds ScanWords
    by_cases hsp : isSpace c = true
    · rw [if_pos hsp, if_pos hsp]
      by_cases he : acc.isEmpty = true
      · rw [if_pos he, if_pos he]; exact ih []
      · rw [if_neg he, if_neg he, List.map_cons, ih []]
    · rw [if_neg hsp, if_neg hsp]; exact ih (c :: acc)

theorem scannerTexts_getD (n : Nat) (pairs : List (String × Option Char))
    (hfit : wordsFit n pairs = true) (i : Nat) (hi : i < n ∨ pairs.length ≤ n) :
    (scannerTexts pairs).getD i "" = (pairs.map Prod.fst).getD i "" := by
  induction n generalizing pairs i with
  | zero =>
    have hl : pairs.length ≤ 0 := by omega
    have : pairs = [] := List.length_eq_zero.1 (by omega)
    subst this
    rfl
  | succ n ih =>
    cases pairs with
    | nil => rfl
    | cons p ps =>
      unfold wordsFit at hfit
      have hf : fitsBuffer p = true ∧ wordsFit n ps = true := by simpa using hfit
      unfold scannerTexts
      rw [if_pos hf.1, List.map_cons]
      cases i with
      | zero => rfl
      | succ j =>
        rw [List.getD_cons_succ, List.getD_cons_succ]
        apply ih ps hf.2 j
        simp only [List.length_cons] at hi
        omega

theorem Atoi_empty : Atoi "" = .error .syntaxError := rfl

theorem scannerTexts_header (pairs : List (String × Option Char)) (w h : Int)
    (hw : Atoi ((scannerTexts pairs).getD 1 "") = .ok w)
    (hh : Atoi ((scannerTexts pairs).getD 2 "") = .ok h) :
    ∃ p0 p1 p2 rest, pairs = p0 :: p1 :: p2 :: rest ∧
      fitsBuffer p0 = true ∧ fitsBuffer p1 = true ∧ fitsBuffer p2 = true ∧
      scannerTexts pairs = p0.1 :: p1.1 :: p2.1 :: scannerTexts rest := by
  cases pairs with
  | nil =>
    simp only [scannerTexts, List.getD_nil] at hw
    rw [Atoi_empty] at hw; cases hw
  | cons p0 ps0 =>
    by_cases hf0 : fitsBuffer p0 = true
    · cases ps0 with
      | nil =>
        simp only [scannerTexts, hf0, if_true, List.getD_cons_succ, List.getD_nil] at hw
        rw [Atoi_empty] at hw; cases hw
      | cons p1 ps1 =>
        by_cases hf1 : fitsBuffer p1 = true
        · cases ps1 with
          | nil =>
            simp only [scannerTexts, hf0, hf1, if_true, List.getD_cons_succ,
              List.getD_nil] at hh
            rw [Atoi_empty] at hh; cases hh
          | cons p2 ps2 =>
            by_cases hf2 : fitsBuffer p2 = true
            · refine ⟨p0, p1, p2, ps2, rfl, hf0, hf1, hf2, ?_⟩
              simp only [scannerTexts, hf0, hf1, hf2, if_true]
            · simp only [scannerTexts, hf0, hf1, hf2, if_true, List.getD_cons_succ,
                List.getD_cons_zero, Bool.false_eq_true, if_false] at hh
              rw [Atoi_empty] at hh; cases hh
        · simp only [scannerTexts, hf0, hf1, if_true, List.getD_cons_succ,
            List.getD_cons_zero, Bool.false_eq_true, if_false] at hw
          rw [Atoi_empty] at hw; cases hw
    · simp only [scannerTexts, hf0, List.getD_cons_succ, List.getD_cons_zero,
        Bool.false_eq_true, if_false, List.getD_nil] at hh
      rw [Atoi_empty] at hh; cases hh

/-! ## Parsing -/

theorem ReadPBM_eq_parseTokens (mem : Memory) (fs : FileSystem) (filename content : String)
    (hopen : fs.content "image.pbm" = some content) :
    ReadPBM mem fs filename
      = parseTokens mem (scannerTexts (wordsWithEnds content.data [])) := by
  unfold ReadPBM
  simp only [hopen]
  exact scan_eq_parseTokens mem content

theorem gridOfTokens_congr (W H : Nat) (a b : List String)
    (hab : ∀ i, i < W * H → a.getD i "" = b.getD i "") :
    gridOfTokens W H a = gridOfTokens W H b := by
  unfold gridOfTokens
  apply List.map_congr_left
  intro y hy
  apply List.map_congr_left
  intro x hx
  have hy1 : y < H := List.mem_range.1 hy
  have hx1 : x < W := List.mem_range.1 hx
  have h1 : (y + 1) * W ≤ H * W := Nat.mul_le_mul_right W hy1
  rw [Nat.add_mul, Nat.one_mul, Nat.mul_comm H W] at h1
  rw [hab (y * W + x) (by omega)]

theorem gridAllocated_iff (mem : Memory) (w h : Int) :
    gridAllocated mem w h = true ↔
      makeCheck mem 0 24 h = none ∧
        ((List.range h.toNat).all fun i => (makeCheck mem (i + 1) 1 w).isNone) = true := by
  unfold gridAllocated
  rw [Bool.and_eq_true, Option.isNone_iff_eq_none]

/-- The result of `ReadPBM` when the header texts are numerals, the grid can be
    allocated and the texts after the header agree with `pixels` as far as the grid
    reads them. -/
theorem parseTokens_of_getD (mem : Memory) (toks : List String) (t0 t1 t2 : String)
    (pixels : List String) (w h : Int)
    (h0 : toks.getD 0 "" = t0) (h1 : toks.getD 1 "" = t1) (h2 : toks.getD 2 "" = t2)
    (hw : Atoi t1 = .ok w) (hh : Atoi t2 = .ok h)
    (halloc : gridAllocated mem w h = true)
    (hpix : ∀ i, i < w.toNat * h.toNat → toks.getD (3 + i) "" = pixels.getD i "") :
    parseTokens mem toks = .ok ⟨gridOfTokens w.toNat h.toNat pixels, w, h, t0⟩ := by
  obtain ⟨ha, hb⟩ := (gridAllocated_iff mem w h).1 halloc
  unfold parseTokens
  simp only [h0, h1, h2, hw, hh, ha]
  rw [if_pos hb]
  congr 2
  apply gridOfTokens_congr
  intro i hi
  rw [getD_drop]
  exact hpix i hi

theorem makeCheck_kind (mem : Memory) (k elemSize : Nat) (n : Int) (f : Failure)
    (h : makeCheck mem k elemSize n = some f) : f = .makeslicePanic ∨ f = .outOfMemory := by
  unfold makeCheck at h
  by_cases h1 : n < 0 ∨ maxAlloc < n.toNat * elemSize
  · rw [if_pos h1] at h; cases h; exact Or.inl rfl
  · rw [if_neg h1] at h
    by_cases h2 : n.toNat * elemSize = 0
    · rw [if_pos h2] at h; cases h
    · rw [if_neg h2] at h
      by_cases h3 : mem k (n.toNat * elemSize) = true
      · rw [if_pos h3] at h; cases h
      · rw [if_neg h3] at h; cases h; exact Or.inr rfl

/-- The result of `ReadPBM` when the header texts are numerals and the grid cannot be
    allocated. -/
theorem parseTokens_not_allocated (mem : Memory) (toks : List String) (w h : Int)
    (hw : Atoi (toks.getD 1 "") = .ok w) (hh : Atoi (toks.getD 2 "") = .ok h)
    (halloc : gridAllocated mem w h = false) :
    ∃ f, parseTokens mem toks = .error f ∧ (f = .makeslicePanic ∨ f = .outOfMemory) := by
  unfold parseTokens
  simp only [hw, hh]
  cases hm : makeCheck mem 0 24 h with
  | some f => exact ⟨f, rfl, makeCheck_kind mem 0 24 h f hm⟩
  | none =>
    simp only
    have hb : ¬ ((List.range h.toNat).all fun i =>
        (makeCheck mem (i + 1) 1 w).isNone) = true := by
      intro hb
      have := (gridAllocated_iff mem w h).2 ⟨hm, hb⟩
      rw [halloc] at this
      cases this
    rw [if_neg hb]
    by_cases hc : w < 0 ∨ maxAlloc < w.toNat
    · rw [if_pos hc]; exact ⟨_, rfl, Or.inl rfl⟩
    · rw [if_neg hc]; exact ⟨_, rfl, Or.inr rfl⟩

theorem decimalValue_getD_of_not_numericAt (toks : List String) (i : Nat)
    (h : numericAt toks i = false) : decimalValue (toks.getD i "") = none := by
  unfold numericAt at h
  rw [List.getD_eq_getElem?_getD]
  cases ht : toks[i]? with
  | none => rfl
  | some t =>
    rw [ht] at h
    simp only [Option.getD_some]
    cases hd : decimalValue t with
    | none => rfl
    | some v =>
      simp only [hd, Option.isSome_some] at h
      cases h

theorem gridOfTokens_wellFormed (w h : Int) (hw0 : 0 ≤ w) (hh0 : 0 ≤ h) (pixels : List String)
    (m : String) : PBM.WellFormed ⟨gridOfTokens w.toNat h.toNat pixels, w, h, m⟩ := by
  unfold PBM.WellFormed gridOfTokens
  refine ⟨by simp; omega, ?_⟩
  intro row hrow
  obtain ⟨y, _, rfl⟩ := List.mem_map.1 hrow
  simp
  omega

theorem At_gridOfTokens (W H : Nat) (pixels : List String) (w h : Int) (m : String)
    (x y : Nat) (hx : x < W) (hy : y < H) :
    PBM.At ⟨gridOfTokens W H pixels, w, h, m⟩ (x : Int) (y : Int)
      = .ok (pixels.getD (y * W + x) "" == "1") := by
  apply At_of_getElem? _ x y ((List.range W).map fun x => pixels.getD (y * W + x) "" == "1")
  · show (gridOfTokens W H pixels)[y]? = _
    unfold gridOfTokens
    rw [List.getElem?_map, List.getElem?_range hy]
    rfl
  · rw [List.getElem?_map, List.getElem?_range hx]
    rfl

theorem index_lt_area {x y W H : Nat} (hx : x < W) (hy : y < H) : y * W + x < W * H := by
  have h1 : (y + 1) * W ≤ H * W := Nat.mul_le_mul_right W hy
  rw [Nat.add_mul, Nat.one_mul, Nat.mul_comm H W] at h1
  omega

/-- C4: when the second or the third token of the file is not a signed decimal numeral
    (the stream ending before that token included), `ReadPBM` returns an error value
    (`ErrSyntax` or `ErrRange`) and no bitmap. -/
theorem ReadPBM_rejects_nonnumeric (mem : Memory) (fs : FileSystem)
    (filename content : String)
    (hopen : fs.content "image.pbm" = some content)
    (hbad : numericAt (ScanWords content.data []) 1 = false ∨
      numericAt (ScanWords content.data []) 2 = false) :
    ∃ e, ReadPBM mem fs filename = .error e ∧ e.isPanic = false := by
  rw [ReadPBM_eq_parseTokens mem fs filename content hopen]
  unfold parseTokens
  cases hw : Atoi ((scannerTexts (wordsWithEnds content.data [])).getD 1 "") with
  | error e =>
    refine ⟨e, rfl, ?_⟩
    rcases Atoi_error_not_panic hw with h | h <;> rw [h] <;> rfl
  | ok width =>
    cases hh : Atoi ((scannerTexts (wordsWithEnds content.data [])).getD 2 "") with
    | error e =>
      refine ⟨e, rfl, ?_⟩
      rcases Atoi_error_not_panic hh with h | h <;> rw [h] <;> rfl
    | ok height =>
      exfalso
      obtain ⟨p0, p1, p2, rest, hp, _, _, _, htx⟩ :=
        scannerTexts_header (wordsWithEnds content.data []) width height hw hh
      have hwords : ScanWords content.data [] = p0.1 :: p1.1 :: p2.1 :: rest.map Prod.fst := by
        rw [← wordsWithEnds_fst, hp]
        rfl
      rw [htx] at hw hh
      simp only [List.getD_cons_succ, List.getD_cons_zero] at hw hh
      rw [hwords] at hbad
      have d1 := (Atoi_ok_decimalValue hw).1
      have d2 := (Atoi_ok_decimalValue hh).1
      rcases hbad with hb | hb
      · have := decimalValue_getD_of_not_numericAt _ _ hb
        simp only [List.getD_cons_succ, List.getD_cons_zero] at this
        rw [d1] at this; cases this
      · have := decimalValue_getD_of_not_numericAt _ _ hb
        simp only [List.getD_cons_succ, List.getD_cons_zero] at this
        rw [d2] at this; cases this

/-- Witness for C4: a file whose width token is `x3`. -/
theorem ReadPBM_rejects_nonnumeric_witness :
    ∃ e, ReadPBM ampleMemory (singleFile "P1\nx3 2\n1 0 1\n0 1 0\n") "image.pbm" = .error e ∧
      e.isPanic = false :=
  ReadPBM_rejects_nonnumeric ampleMemory (singleFile "P1\nx3 2\n1 0 1\n0 1 0\n") "image.pbm"
    "P1\nx3 2\n1 0 1\n0 1 0\n" rfl (Or.inl (by rfl))

theorem ReadPBM_header (mem : Memory) (fs : FileSystem)
    (filename content t0 t1 t2 : String) (rest pixels : List String) (w h : Int) (n : Nat)
    (hopen : fs.content "image.pbm" = some content)
    (htoks : ScanWords content.data [] = t0 :: t1 :: t2 :: rest)
    (hfit : tokensFit (3 + n) content = true)
    (hcover : ∀ i, i < w.toNat * h.toNat → i < n ∨ rest.length ≤ n)
    (hpix : ∀ i, i < w.toNat * h.toNat → rest.getD i "" = pixels.getD i "")
    (hw : Atoi t1 = .ok w) (hh : Atoi t2 = .ok h)
    (halloc : gridAllocated mem w h = true) :
    ReadPBM mem fs filename = .ok ⟨gridOfTokens w.toNat h.toNat pixels, w, h, t0⟩ := by
  rw [ReadPBM_eq_parseTokens mem fs filename content hopen]
  have hlen : (wordsWithEnds content.data []).length = 3 + rest.length := by
    have := congrArg List.length (wordsWithEnds_fst content.data [])
    rw [htoks] at this
    simp only [List.length_map, List.length_cons] at this
    omega
  have hget : ∀ i, (i < 3 + n ∨ rest.length ≤ n) →
      (scannerTexts (wordsWithEnds content.data [])).getD i ""
        = (t0 :: t1 :: t2 :: rest).getD i "" := by
    intro i hi
    rw [scannerTexts_getD (3 + n) _ hfit i (by omega), wordsWithEnds_fst, htoks]
  apply parseTokens_of_getD mem _ t0 t1 t2 pixels w h
    (hget 0 (by omega)) (hget 1 (by omega)) (hget 2 (by omega)) hw hh halloc
  intro i hi
  rw [hget (3 + i) (by have := hcover i hi; omega)]
  have e : (t0 :: t1 :: t2 :: rest).getD (3 + i) "" = rest.getD i "" := by
    rw [show 3 + i = i + 1 + 1 + 1 by omega]
    simp only [List.getD_cons_succ]
  rw [e]
  exact hpix i hi

theorem ReadPBM_not_allocated (mem : Memory) (fs : FileSystem)
    (filename content t0 t1 t2 : String) (rest : List String) (w h : Int)
    (hopen : fs.content "image.pbm" = some content)
    (htoks : ScanWords content.data [] = t0 :: t1 :: t2 :: rest)
    (hfit : tokensFit 3 content = true)
    (hw : Atoi t1 = .ok w) (hh : Atoi t2 = .ok h)
    (halloc : gridAllocated mem w h = false) :
    ∃ f, ReadPBM mem fs filename = .error f ∧ (f = .makeslicePanic ∨ f = .outOfMemory) := by
  rw [ReadPBM_eq_parseTokens mem fs filename content hopen]
  have hget : ∀ i, i < 3 →
      (scannerTexts (wordsWithEnds content.data [])).getD i ""
        = (t0 :: t1 :: t2 :: rest).getD i "" := by
    intro i hi
    rw [scannerTexts_getD 3 _ hfit i (Or.inl hi), wordsWithEnds_fst, htoks]
  apply parseTokens_not_allocated mem _ w h _ _ halloc
  · rw [hget 1 (by omega)]; exact hw
  · rw [hget 2 (by omega)]; exact hh

theorem tokensFit_mono (n m : Nat) (content : String) (hnm : m ≤ n)
    (h : tokensFit n content = true) : tokensFit m content = true := by
  unfold tokensFit at h ⊢
  generalize wordsWithEnds content.data [] = pairs at h ⊢
  induction n generalizing m pairs with
  | zero =>
    have : m = 0 := by omega
    subst this
    exact h
  | succ n ih =>
    cases m with
    | zero => cases pairs <;> rfl
    | succ m1 =>
      cases pairs with
      | nil => rfl
      | cons q qs =>
        unfold wordsFit at h ⊢
        have hf : fitsBuffer q = true ∧ wordsFit n qs = true := by simpa using h
        rw [hf.1, ih m1 (by omega) qs hf.2]
        rfl

/-- C2 as stated fails: with the header `2 2` and only three pixel tokens `ReadPBM`
    returns a bitmap, the missing pixel being false. -/
theorem ReadPBM_short_stream_counterexample :
    ScanWords "P1\n2 2\n1 0 1\n".data [] = ["P1", "2", "2", "1", "0", "1"] ∧
    ReadPBM ampleMemory (singleFile "P1\n2 2\n1 0 1\n") "image.pbm"
      = .ok ⟨[[true, false], [true, false]], 2, 2, "P1"⟩ :=
  ⟨by rfl, by rfl⟩

/-- C2, amended: on a stream of tokens that fit the scanner's buffer, whose header holds
    decimal integers `0 ≤ w, h < 2^63` and which has fewer than `w*h` pixel tokens:
    when the grid can be allocated (`24*h` and `w` bytes within `maxAlloc`, and the heap
    provides the slices) `ReadPBM` does not fail but returns a bitmap of `h` rows of `w`
    pixels with that width and height, in which a pixel whose token is present is true
    exactly when the token is `1`, and a pixel whose token is missing is false; when the
    grid cannot be allocated `ReadPBM` returns no bitmap and stops with the panic
    `makeslice: len out of range` or with `out of memory`. -/
theorem ReadPBM_short_stream (mem : Memory) (fs : FileSystem)
    (filename content t0 t1 t2 : String)
    (pixels : List String) (w h : Int)
    (hopen : fs.content "image.pbm" = some content)
    (htoks : ScanWords content.data [] = t0 :: t1 :: t2 :: pixels)
    (hfit : tokensFit (3 + pixels.length) content = true)
    (hw : decimalValue t1 = some w) (hh : decimalValue t2 = some h)
    (hw0 : 0 ≤ w) (hh0 : 0 ≤ h) (hwr : w < 2 ^ 63) (hhr : h < 2 ^ 63)
    (_hlen : (pixels.length : Int) < w * h) :
    (gridAllocated mem w h = true →
      ∃ b, ReadPBM mem fs filename = .ok b ∧ b.WellFormed ∧
        b.magicNumber = t0 ∧ b.width = w ∧ b.height = h ∧
        ∀ x y : Nat, (x : Int) < w → (y : Int) < h →
          (∀ tok, pixels[y * w.toNat + x]? = some tok → b.At x y = .ok (tok == "1")) ∧
          (pixels.length ≤ y * w.toNat + x → b.At x y = .ok false)) ∧
    (gridAllocated mem w h = false →
      ∃ f, ReadPBM mem fs filename = .error f ∧
        (f = .makeslicePanic ∨ f = .outOfMemory)) := by
  have hAw := Atoi_of_decimalValue hw (by omega) hwr
  have hAh := Atoi_of_decimalValue hh (by omega) hhr
  constructor
  · intro halloc
    refine ⟨_, ReadPBM_header mem fs filename content t0 t1 t2 pixels pixels w h pixels.length
      hopen htoks hfit (fun i _ => Or.inr (Nat.le_refl _)) (fun i _ => rfl) hAw hAh halloc,
      gridOfTokens_wellFormed w h hw0 hh0 pixels t0, rfl, rfl, rfl, ?_⟩
    intro x y hx hy
    have hat := At_gridOfTokens w.toNat h.toNat pixels w h t0 x y (by omega) (by omega)
    rw [hat]
    constructor
    · intro tok htok
      rw [List.getD_eq_getElem?_getD, htok]
      rfl
    · intro hge
      rw [List.getD_eq_getElem?_getD, List.getElem?_eq_none hge]
      rfl
  · intro halloc
    exact ReadPBM_not_allocated mem fs filename content t0 t1 t2 pixels w h hopen htoks
      (tokensFit_mono _ 3 content (by omega) hfit) hAw hAh halloc

/-- Witness for the amended C2 on the file with header `2 2` and three pixel tokens. -/
theorem ReadPBM_short_stream_witness :
    ∃ b, ReadPBM ampleMemory (singleFile "P1\n2 2\n1 0 1\n") "image.pbm" = .ok b ∧
      b.WellFormed ∧ b.magicNumber = "P1" ∧ b.width = 2 ∧ b.height = 2 ∧
      ∀ x y : Nat, (x : Int) < 2 → (y : Int) < 2 →
        (∀ tok, ["1", "0", "1"][y * (2 : Int).toNat + x]? = some tok →
          b.At x y = .ok (tok == "1")) ∧
        (["1", "0", "1"].length ≤ y * (2 : Int).toNat + x → b.At x y = .ok false) :=
  (ReadPBM_short_stream ampleMemory (singleFile "P1\n2 2\n1 0 1\n") "image.pbm"
    "P1\n2 2\n1 0 1\n" "P1" "2" "2" ["1", "0", "1"] 2 2 rfl (by rfl) (by rfl) (by rfl)
    (by rfl) (by decide) (by decide) (by decide) (by decide) (by decide)).1 (by rfl)

/-- C3 as stated fails outside the range of `int`: the width token `9223372036854775808`
    is a decimal integer `w ≥ 0` (and no pixel token is owed, the height being `0`), yet
    `ReadPBM` returns the range error of `strconv.Atoi`. -/
theorem ReadPBM_reference_counterexample :
    ScanWords "P1 9223372036854775808 0".data [] = ["P1", "9223372036854775808", "0"] ∧
    decimalValue "9223372036854775808" = some 9223372036854775808 ∧
    decimalValue "0" = some 0 ∧
    ReadPBM ampleMemory (singleFile "P1 9223372036854775808 0") "image.pbm"
      = .error .rangeError :=
  ⟨by rfl, by rfl, by rfl, by rfl⟩

/-- C3, amended: for a token stream `t0 t1 t2 p_0 ... p_(w*h-1)` of tokens that fit the
    scanner's buffer, in which `t1` and `t2` are decimal integers `0 ≤ w < 2^63` and
    `0 ≤ h < 2^63` (the values of a Go `int`), and when the grid can be allocated
    (`24*h` and `w` bytes within `maxAlloc`, and the heap provides the slices),
    `ReadPBM` succeeds with `magicNumber = t0`, `width = w`, `height = h`, and for all
    `x < w`, `y < h` the pixel `At(x, y)` is true exactly when token `p_(y*w+x)` is the
    literal `1`. -/
theorem ReadPBM_reference (mem : Memory) (fs : FileSystem)
    (filename content t0 t1 t2 : String)
    (pixels : List String) (w h : Int)
    (hopen : fs.content "image.pbm" = some content)
    (htoks : ScanWords content.data [] = t0 :: t1 :: t2 :: pixels)
    (hfit : tokensFit (3 + pixels.length) content = true)
    (hw : decimalValue t1 = some w) (hh : decimalValue t2 = some h)
    (hw0 : 0 ≤ w) (hh0 : 0 ≤ h) (hwr : w < 2 ^ 63) (hhr : h < 2 ^ 63)
    (halloc : gridAllocated mem w h = true)
    (hlen : (pixels.length : Int) = w * h) :
    ReadPBM mem fs filename = .ok ⟨gridOfTokens w.toNat h.toNat pixels, w, h, t0⟩ ∧
    ∀ x y : Nat, (x : Int) < w → (y : Int) < h →
      ∃ tok, pixels[y * w.toNat + x]? = some tok ∧
        PBM.At ⟨gridOfTokens w.toNat h.toNat pixels, w, h, t0⟩ x y = .ok (tok == "1") := by
  refine ⟨ReadPBM_header mem fs filename content t0 t1 t2 pixels pixels w h pixels.length
    hopen htoks hfit (fun i _ => Or.inr (Nat.le_refl _)) (fun i _ => rfl)
    (Atoi_of_decimalValue hw (by omega) hwr) (Atoi_of_decimalValue hh (by omega) hhr)
    halloc, ?_⟩
  intro x y hx hy
  have hat := At_gridOfTokens w.toNat h.toNat pixels w h t0 x y (by omega) (by omega)
  have hbound : y * w.toNat + x < w.toNat * h.toNat :=
    index_lt_area (by omega) (by omega)
  have hlenN : pixels.length = w.toNat * h.toNat := by
    have e1 : w = (w.toNat : Int) := (Int.toNat_of_nonneg hw0).symm
    have e2 : h = (h.toNat : Int) := (Int.toNat_of_nonneg hh0).symm
    rw [e1, e2] at hlen
    exact_mod_cast hlen
  have hlt : y * w.toNat + x < pixels.length := by omega
  refine ⟨pixels.get ⟨_, hlt⟩, by simp [List.getElem?_eq_getElem hlt], ?_⟩
  rw [hat, List.getD_eq_getElem?_getD, List.getElem?_eq_getElem hlt]
  rfl

/-- Witness for the amended C3: the file `P1`, `3 2`, `1 0 1`, `0 1 0` parses to width 3,
    height 2 and the grid `[[T,F,T],[F,T,F]]`. -/
theorem ReadPBM_reference_witness :
    ReadPBM ampleMemory (singleFile "P1\n3 2\n1 0 1\n0 1 0\n") "image.pbm"
      = .ok ⟨[[true, false, true], [false, true, false]], 3, 2, "P1"⟩ :=
  (ReadPBM_reference ampleMemory (singleFile "P1\n3 2\n1 0 1\n0 1 0\n") "image.pbm"
    "P1\n3 2\n1 0 1\n0 1 0\n" "P1" "3" "2" ["1", "0", "1", "0", "1", "0"] 3 2 rfl (by rfl)
    (by rfl) (by rfl) (by rfl) (by decide) (by decide) (by decide) (by decide) (by rfl)
    (by decide)).1

/-! ## Words of a text -/

theorem ScanWords_isWord (cs acc : List Char) (hacc : ∀ c ∈ acc, isSpace c = false) :
    ∀ t ∈ ScanWords cs acc, IsWord t := by
  induction cs generalizing acc with
  | nil =>
    cases acc with
    | nil => intro t ht; simp [ScanWords] at ht
    | cons a acc =>
      intro t ht
      simp only [ScanWords, List.mem_singleton] at ht
      subst ht
      refine ⟨by simp, ?_⟩
      intro c hc
      have hc1 : c ∈ (a :: acc).reverse := hc
      exact hacc c (List.mem_reverse.1 hc1)
  | cons c cs ih =>
    intro t ht
    unfold ScanWords at ht
    by_cases hsp : isSpace c = true
    · rw [if_pos hsp] at ht
      by_cases he : acc.isEmpty = true
      · rw [if_pos he] at ht
        exact ih [] (by simp) t ht
      · rw [if_neg he] at ht
        rcases List.mem_cons.1 ht with h | h
        · subst h
          refine ⟨?_, ?_⟩
          · cases acc with
            | nil => simp at he
            | cons a acc => simp
          · intro d hd
            exact hacc d (by simpa using hd)
        · exact ih [] (by simp) t h
    · rw [if_neg hsp] at ht
      refine ih (c :: acc) ?_ t ht
      intro d hd
      rcases List.mem_cons.1 hd with h | h
      · subst h; simpa using hsp
      · exact hacc d h

theorem ScanWords_append_word (wd rest acc : List Char) (hwd : ∀ c ∈ wd, isSpace c = false) :
    ScanWords (wd ++ rest) acc = ScanWords rest (wd.reverse ++ acc) := by
  induction wd generalizing acc with
  | nil => rfl
  | cons c cs ih =>
    have hc : isSpace c = false := hwd c (by simp)
    rw [List.cons_append, ScanWords]
    simp only [hc, Bool.false_eq_true, if_false]
    rw [ih (c :: acc) (fun d hd => hwd d (by simp [hd]))]
    simp

theorem ScanWords_token (t : String) (ht : IsWord t) (c : Char) (hc : isSpace c = true)
    (rest : List Char) :
    ScanWords (t.data ++ c :: rest) [] = t :: ScanWords rest [] := by
  rw [ScanWords_append_word t.data (c :: rest) [] ht.2, ScanWords]
  simp only [hc, if_true, List.append_nil]
  have hne : t.data.reverse.isEmpty = false := by
    cases hd : t.data with
    | nil => exact absurd hd ht.1
    | cons a as => simp
  simp only [hne, Bool.false_eq_true, if_false, List.reverse_reverse]

theorem ScanWords_space (c : Char) (hc : isSpace c = true) (rest : List Char) :
    ScanWords (c :: rest) [] = ScanWords rest [] := by
  rw [ScanWords]
  simp [hc]

theorem isSpace_of_isDecimalDigit {c : Char} (h : isDecimalDigit c = true) :
    isSpace c = false := by
  have hb := isDecimalDigit_bounds h
  unfold isSpace
  simp only [Bool.or_eq_false_iff, decide_eq_false_iff_not]
  omega

theorem formatInt_isWord (i : Int) : IsWord (formatInt i) := by
  obtain ⟨_, h2, h3⟩ := toDigits_spec i.natAbs
  have hdig : ∀ c ∈ Nat.toDigits 10 i.natAbs, isSpace c = false := by
    intro c hc
    exact isSpace_of_isDecimalDigit (List.all_eq_true.1 h2 c hc)
  unfold formatInt
  by_cases hneg : i < 0
  · rw [if_pos hneg]
    refine ⟨by simp, ?_⟩
    intro c hc
    rcases List.mem_cons.1 hc with h | h
    · subst h; decide
    · exact hdig c h
  · rw [if_neg hneg]
    exact ⟨h3, hdig⟩

/-! ## Words of the saved text -/

theorem pixelToken_isWord (v : Bool) : IsWord (if v then "1" else "0") := by
  cases v
  · exact ⟨by decide, by decide⟩
  · exact ⟨by decide, by decide⟩

theorem isSpace_newline : isSpace (Char.ofNat 10) = true := by decide

theorem isSpace_blank : isSpace (Char.ofNat 32) = true := by decide

theorem ScanWords_savedRow (row : List Bool) (rest : List Char) :
    ScanWords ((concatStrings (row.map fun v => (if v then "1" else "0") ++ " ")).data ++ rest) []
      = (row.map fun v => if v then "1" else "0") ++ ScanWords rest [] := by
  induction row with
  | nil => rfl
  | cons v vs ih =>
    rw [List.map_cons, concatStrings, String.data_append, String.data_append, List.map_cons,
      List.cons_append, ← ih]
    have hsp : (" " : String).data = [Char.ofNat 32] := rfl
    rw [hsp, List.append_assoc, List.append_assoc, List.singleton_append]
    exact ScanWords_token _ (pixelToken_isWord v) _ isSpace_blank _

theorem ScanWords_savedRows (data : List (List Bool)) (rest : List Char) :
    ScanWords ((concatStrings (data.map fun row =>
        concatStrings (row.map fun v => (if v then "1" else "0") ++ " ") ++ "\n")).data ++ rest) []
      = (data.flatten.map fun v => if v then "1" else "0") ++ ScanWords rest [] := by
  induction data with
  | nil => rfl
  | cons row rows ih =>
    rw [List.map_cons, concatStrings, String.data_append, String.data_append,
      List.flatten_cons, List.map_append]
    have hnl : ("\n" : String).data = [Char.ofNat 10] := rfl
    rw [hnl]
    simp only [List.append_assoc, List.singleton_append, List.cons_append, List.nil_append]
    rw [ScanWords_savedRow, ScanWords_space _ isSpace_newline, ih]

theorem saveText_words (b : PBM) (hm : IsWord b.magicNumber) :
    ScanWords b.saveText.data []
      = b.magicNumber :: formatInt b.width :: formatInt b.height ::
          (b.data.flatten.map fun v => if v then "1" else "0") := by
  unfold PBM.saveText
  simp only
  rw [saveRows_eq]
  simp only [String.data_append]
  simp only [List.append_assoc, List.singleton_append, List.cons_append, List.nil_append]
  have hrows := ScanWords_savedRows b.data []
  rw [List.append_nil] at hrows
  rw [ScanWords_token _ hm, ScanWords_token _ (formatInt_isWord _),
    ScanWords_token _ (formatInt_isWord _), hrows]
  · simp [ScanWords]
  · decide
  · decide
  · decide

/-! ## The grid of the saved tokens -/

theorem flatten_getElem? {α : Type} (W : Nat) (D : List (List α))
    (hD : ∀ row ∈ D, row.length = W) (y x : Nat) (hx : x < W) :
    D.flatten[y * W + x]? = (D[y]?).bind fun row => row[x]? := by
  induction D generalizing y with
  | nil => simp
  | cons r rs ih =>
    have hr : r.length = W := hD r (by simp)
    rw [List.flatten_cons]
    cases y with
    | zero =>
      rw [Nat.zero_mul, Nat.zero_add, List.getElem?_append_left (by omega)]
      simp
    | succ y1 =>
      rw [List.getElem?_append_right (by rw [hr, Nat.add_mul]; omega)]
      have : (y1 + 1) * W + x - r.length = y1 * W + x := by
        rw [hr, Nat.add_mul]; omega
      rw [this, ih (fun row h => hD row (by simp [h])) y1]
      simp

theorem gridOfTokens_flatten (W H : Nat) (D : List (List Bool)) (hlen : D.length = H)
    (hD : ∀ row ∈ D, row.length = W) :
    gridOfTokens W H (D.flatten.map fun v => if v then "1" else "0") = D := by
  unfold gridOfTokens
  apply List.ext_getElem?
  intro y
  rw [List.getElem?_map]
  by_cases hy : y < H
  · rw [List.getElem?_range hy, List.getElem?_eq_getElem (by omega : y < D.length)]
    simp only [Option.map_some']
    congr 1
    have hrow : (D.get ⟨y, by omega⟩).length = W := hD _ (List.get_mem _ _ _)
    apply List.ext_getElem?
    intro x
    rw [List.getElem?_map]
    by_cases hx : x < W
    · have hf := flatten_getElem? W D hD y x hx
      rw [List.getElem?_eq_getElem (by omega : y < D.length)] at hf
      simp only [Option.some_bind] at hf
      have hx2 : x < (D.get ⟨y, by omega⟩).length := by omega
      have hget : D[y][x]? = some ((D.get ⟨y, by omega⟩).get ⟨x, hx2⟩) := by
        simp [List.getElem?_eq_getElem hx2]
      rw [List.getElem?_range hx, hget]
      rw [hget] at hf
      simp only [Option.map_some']
      congr 1
      rw [List.getD_eq_getElem?_getD, List.getElem?_map, hf]
      cases (D.get ⟨y, by omega⟩).get ⟨x, hx2⟩ <;> rfl
    · rw [List.getElem?_eq_none (by simp; omega), List.getElem?_eq_none (by
        show D[y].length ≤ x
        have : D[y].length = W := hrow
        omega)]
      rfl
  · rw [List.getElem?_eq_none (by simp; omega), List.getElem?_eq_none (by omega)]
    rfl

/-! ## The scanner on the saved text -/

theorem wordsWithEnds_append_word (wd rest acc : List Char)
    (hwd : ∀ c ∈ wd, isSpace c = false) :
    wordsWithEnds (wd ++ rest) acc = wordsWithEnds rest (wd.reverse ++ acc) := by
  induction wd generalizing acc with
  | nil => rfl
  | cons c cs ih =>
    have hc : isSpace c = false := hwd c (by simp)
    rw [List.cons_append, wordsWithEnds]
    simp only [hc, Bool.false_eq_true, if_false]
    rw [ih (c :: acc) (fun d hd => hwd d (by simp [hd]))]
    simp

theorem wordsWithEnds_token (t : String) (ht : IsWord t) (c : Char) (hc : isSpace c = true)
    (rest : List Char) :
    wordsWithEnds (t.data ++ c :: rest) [] = (t, some c) :: wordsWithEnds rest [] := by
  rw [wordsWithEnds_append_word t.data (c :: rest) [] ht.2, wordsWithEnds]
  simp only [hc, if_true, List.append_nil]
  have hne : t.data.reverse.isEmpty = false := by
    cases hd : t.data with
    | nil => exact absurd hd ht.1
    | cons a as => simp
  simp only [hne, Bool.false_eq_true, if_false, List.reverse_reverse]

theorem wordsWithEnds_space (c : Char) (hc : isSpace c = true) (rest : List Char) :
    wordsWithEnds (c :: rest) [] = wordsWithEnds rest [] := by
  rw [wordsWithEnds]
  simp [hc]

theorem wordsWithEnds_savedRow (row : List Bool) (rest : List Char) :
    wordsWithEnds
        ((concatStrings (row.map fun v => (if v then "1" else "0") ++ " ")).data ++ rest) []
      = (row.map fun v => ((if v then "1" else "0" : String), some (Char.ofNat 32)))
          ++ wordsWithEnds rest [] := by
  induction row with
  | nil => rfl
  | cons v vs ih =>
    rw [List.map_cons, concatStrings, String.data_append, String.data_append, List.map_cons,
      List.cons_append, ← ih]
    have hsp : (" " : String).data = [Char.ofNat 32] := rfl
    rw [hsp, List.append_assoc, List.append_assoc, List.singleton_append]
    exact wordsWithEnds_token _ (pixelToken_isWord v) _ isSpace_blank _

theorem wordsWithEnds_savedRows (data : List (List Bool)) (rest : List Char) :
    wordsWithEnds ((concatStrings (data.map fun row =>
        concatStrings (row.map fun v => (if v then "1" else "0") ++ " ") ++ "\n")).data ++ rest) []
      = (data.flatten.map fun v => ((if v then "1" else "0" : String), some (Char.ofNat 32)))
          ++ wordsWithEnds rest [] := by
  induction data with
  | nil => rfl
  | cons row rows ih =>
    rw [List.map_cons, concatStrings, String.data_append, String.data_append,
      List.flatten_cons, List.map_append]
    have hnl : ("\n" : String).data = [Char.ofNat 10] := rfl
    rw [hnl]
    simp only [List.append_assoc, List.singleton_append, List.cons_append, List.nil_append]
    rw [wordsWithEnds_savedRow, wordsWithEnds_space _ isSpace_newline, ih]

theorem saveText_pairs (b : PBM) (hm : IsWord b.magicNumber) :
    wordsWithEnds b.saveText.data []
      = (b.magicNumber, some (Char.ofNat 10)) :: (formatInt b.width, some (Char.ofNat 32)) ::
          (formatInt b.height, some (Char.ofNat 10)) ::
          (b.data.flatten.map fun v =>
            ((if v then "1" else "0" : String), some (Char.ofNat 32))) := by
  unfold PBM.saveText
  simp only
  rw [saveRows_eq]
  simp only [String.data_append]
  simp only [List.append_assoc, List.singleton_append, List.cons_append, List.nil_append]
  have hrows := wordsWithEnds_savedRows b.data []
  rw [List.append_nil] at hrows
  rw [wordsWithEnds_token _ hm, wordsWithEnds_token _ (formatInt_isWord _),
    wordsWithEnds_token _ (formatInt_isWord _), hrows]
  · simp [wordsWithEnds]
  · decide
  · decide
  · decide

theorem runeLen_le (c : Char) : 1 ≤ runeLen c ∧ runeLen c ≤ 4 := by
  unfold runeLen
  split
  · omega
  · split
    · omega
    · split <;> omega

theorem fitsBuffer_of_small (t : String) (e : Option Char)
    (h : byteLen t.data + 4 ≤ MaxScanTokenSize) : fitsBuffer (t, e) = true := by
  unfold fitsBuffer
  cases e with
  | none => simp only [decide_eq_true_eq]; omega
  | some c =>
    have := runeLen_le c
    simp only [decide_eq_true_eq]; omega

theorem byteLen_of_fitsBuffer (p : String × Option Char) (h : fitsBuffer p = true) :
    byteLen p.1.data + 1 ≤ MaxScanTokenSize := by
  unfold fitsBuffer at h
  cases he : p.2 with
  | none =>
    rw [he] at h
    simpa using h
  | some c =>
    rw [he] at h
    have := runeLen_le c
    have h1 : byteLen p.1.data + runeLen c ≤ MaxScanTokenSize := by simpa using h
    omega

theorem byteLen_digits (ds : List Char) (h : ds.all isDecimalDigit = true) :
    byteLen ds = ds.length := by
  induction ds with
  | nil => rfl
  | cons c cs ih =>
    have hc : isDecimalDigit c = true := List.all_eq_true.1 h c (by simp)
    have hcs : cs.all isDecimalDigit = true := by
      apply List.all_eq_true.2
      intro d hd
      exact List.all_eq_true.1 h d (by simp [hd])
    have hb := isDecimalDigit_bounds hc
    have hr : runeLen c = 1 := by
      unfold runeLen
      rw [if_pos (by omega)]
    rw [byteLen, hr, ih hcs, List.length_cons]
    omega

theorem formatInt_byteLen (i : Int) (hlo : -(2 ^ 63 : Int) ≤ i) (hhi : i < 2 ^ 63) :
    byteLen (formatInt i).data ≤ 21 := by
  obtain ⟨_, h2, _⟩ := toDigits_spec i.natAbs
  have hlen : (Nat.toDigits 10 i.natAbs).length ≤ 20 := by
    have hn : i.natAbs < 10 ^ 20 := by
      have : (2 : Nat) ^ 63 < 10 ^ 20 := by norm_num
      omega
    exact Nat.toDigitsCore_length 10 (by norm_num) (i.natAbs + 1) i.natAbs 20 hn (by norm_num)
  have hb := byteLen_digits _ h2
  unfold formatInt
  by_cases hneg : i < 0
  · rw [if_pos hneg]
    show byteLen (Char.ofNat 45 :: Nat.toDigits 10 i.natAbs) ≤ 21
    rw [byteLen, hb]
    have : runeLen (Char.ofNat 45) = 1 := by decide
    omega
  · rw [if_neg hneg]
    show byteLen (Nat.toDigits 10 i.natAbs) ≤ 21
    omega

theorem scannerTexts_of_all_fit (pairs : List (String × Option Char))
    (h : ∀ q ∈ pairs, fitsBuffer q = true) : scannerTexts pairs = pairs.map Prod.fst := by
  induction pairs with
  | nil => rfl
  | cons q qs ih =>
    unfold scannerTexts
    rw [if_pos (h q (by simp)), List.map_cons, ih (fun r hr => h r (by simp [hr]))]

theorem saveText_texts (b : PBM) (hm : IsWord b.magicNumber)
    (hmlen : byteLen b.magicNumber.data + 1 ≤ MaxScanTokenSize)
    (hw : -(2 ^ 63 : Int) ≤ b.width ∧ b.width < 2 ^ 63)
    (hh : -(2 ^ 63 : Int) ≤ b.height ∧ b.height < 2 ^ 63) :
    scannerTexts (wordsWithEnds b.saveText.data [])
      = b.magicNumber :: formatInt b.width :: formatInt b.height ::
          (b.data.flatten.map fun v => if v then "1" else "0") := by
  rw [scannerTexts_of_all_fit, wordsWithEnds_fst, saveText_words b hm]
  rw [saveText_pairs b hm]
  intro q hq
  have hsmall : ∀ i : Int, -(2 ^ 63 : Int) ≤ i → i < 2 ^ 63 → ∀ e,
      fitsBuffer (formatInt i, e) = true := by
    intro i h1 h2 e
    apply fitsBuffer_of_small
    have := formatInt_byteLen i h1 h2
    unfold MaxScanTokenSize
    omega
  rcases List.mem_cons.1 hq with h | hq
  · subst h
    unfold fitsBuffer
    have : runeLen (Char.ofNat 10) = 1 := by decide
    simp only [this, decide_eq_true_eq]
    exact hmlen
  · rcases List.mem_cons.1 hq with h | hq
    · subst h; exact hsmall _ hw.1 hw.2 _
    · rcases List.mem_cons.1 hq with h | hq
      · subst h; exact hsmall _ hh.1 hh.2 _
      · obtain ⟨v, _, rfl⟩ := List.mem_map.1 hq
        cases v <;> decide

/-! ## Round trip -/

theorem parseTokens_ok_inv {mem : Memory} {toks : List String} {b : PBM}
    (hb : parseTokens mem toks = .ok b) :
    ∃ w h : Int, Atoi (toks.getD 1 "") = .ok w ∧ Atoi (toks.getD 2 "") = .ok h ∧
      gridAllocated mem w h = true ∧
      b = ⟨gridOfTokens w.toNat h.toNat (toks.drop 3), w, h, toks.getD 0 ""⟩ := by
  unfold parseTokens at hb
  cases hw : Atoi (toks.getD 1 "") with
  | error e => rw [hw] at hb; cases hb
  | ok w =>
    cases hh : Atoi (toks.getD 2 "") with
    | error e => rw [hw, hh] at hb; cases hb
    | ok h =>
      rw [hw, hh] at hb
      simp only at hb
      cases hm : makeCheck mem 0 24 h with
      | some f => rw [hm] at hb; cases hb
      | none =>
        rw [hm] at hb
        simp only at hb
        by_cases hall : ((List.range h.toNat).all fun i =>
            (makeCheck mem (i + 1) 1 w).isNone) = true
        · rw [if_pos hall] at hb
          cases hb
          exact ⟨w, h, rfl, rfl, (gridAllocated_iff mem w h).2 ⟨hm, hall⟩, rfl⟩
        · rw [if_neg hall] at hb
          by_cases hc : w < 0 ∨ maxAlloc < w.toNat
          · rw [if_pos hc] at hb; cases hb
          · rw [if_neg hc] at hb; cases hb

theorem magic_isWord_of_parse {cs : List Char} {w h : Int}
    (hw : Atoi ((scannerTexts (wordsWithEnds cs [])).getD 1 "") = .ok w)
    (hh : Atoi ((scannerTexts (wordsWithEnds cs [])).getD 2 "") = .ok h) :
    IsWord ((scannerTexts (wordsWithEnds cs [])).getD 0 "") ∧
    byteLen ((scannerTexts (wordsWithEnds cs [])).getD 0 "").data + 1 ≤ MaxScanTokenSize := by
  obtain ⟨p0, p1, p2, rest, hp, hf0, _, _, htx⟩ := scannerTexts_header _ w h hw hh
  rw [htx, List.getD_cons_zero]
  refine ⟨?_, byteLen_of_fitsBuffer p0 hf0⟩
  apply ScanWords_isWord cs [] (by simp)
  rw [← wordsWithEnds_fst, hp]
  simp

theorem parse_saveText {mem mem2 : Memory} {b : PBM} {toks : List String}
    (hb : parseTokens mem toks = .ok b)
    (hm : IsWord (toks.getD 0 ""))
    (hmlen : byteLen (toks.getD 0 "").data + 1 ≤ MaxScanTokenSize)
    (halloc2 : gridAllocated mem2 b.width b.height = true) :
    parseTokens mem2 (scannerTexts (wordsWithEnds b.saveText.data [])) = .ok b := by
  obtain ⟨w, h, hw, hh, _, rfl⟩ := parseTokens_ok_inv hb
  have hwr := Atoi_range hw
  have hhr := Atoi_range hh
  rw [saveText_texts _ hm hmlen hwr hhr]
  simp only
  have key := parseTokens_of_getD mem2
    (toks.getD 0 "" :: formatInt w :: formatInt h ::
      ((gridOfTokens w.toNat h.toNat (toks.drop 3)).flatten.map fun v =>
        if v then "1" else "0"))
    (toks.getD 0 "") (formatInt w) (formatInt h)
    ((gridOfTokens w.toNat h.toNat (toks.drop 3)).flatten.map fun v => if v then "1" else "0")
    w h rfl rfl rfl (Atoi_formatInt w hwr.1 hwr.2) (Atoi_formatInt h hhr.1 hhr.2) halloc2
    (fun i _ => by
      rw [show 3 + i = i + 1 + 1 + 1 by omega]
      simp only [List.getD_cons_succ])
  rw [key]
  congr 2
  apply gridOfTokens_flatten
  · simp [gridOfTokens]
  · intro row hrow
    unfold gridOfTokens at hrow
    obtain ⟨y, _, rfl⟩ := List.mem_map.1 hrow
    simp

theorem gridAllocated_of_read {mem : Memory} {fs : FileSystem} {filename : String} {b : PBM}
    (hread : ReadPBM mem fs filename = .ok b) : gridAllocated mem b.width b.height = true := by
  unfold ReadPBM at hread
  cases hc : fs.content "image.pbm" with
  | none => rw [hc] at hread; cases hread
  | some content =>
    rw [hc] at hread
    simp only at hread
    rw [scan_eq_parseTokens] at hread
    obtain ⟨w, h, _, _, halloc, rfl⟩ := parseTokens_ok_inv hread
    exact halloc

theorem scan_saveText_of_read {mem mem2 : Memory} {fs : FileSystem} {filename : String}
    {b : PBM} (hread : ReadPBM mem fs filename = .ok b)
    (halloc2 : gridAllocated mem2 b.width b.height = true) :
    ReadPBM.scan mem2 b.saveText = .ok b := by
  unfold ReadPBM at hread
  cases hc : fs.content "image.pbm" with
  | none => rw [hc] at hread; cases hread
  | some content =>
    rw [hc] at hread
    simp only at hread
    rw [scan_eq_parseTokens] at hread ⊢
    obtain ⟨w, h, hw, hh, _⟩ := parseTokens_ok_inv hread
    obtain ⟨hm, hmlen⟩ := magic_isWord_of_parse hw hh
    exact parse_saveText hread hm hmlen halloc2

theorem ReadPBM_after_Save (mem : Memory) (b : PBM) (fs : FileSystem) (p name : String)
    (hc : fs.creatable p = true) (hp : fs.resolve p = fs.resolve "image.pbm") :
    ReadPBM mem (b.Save fs p).1 name = ReadPBM.scan mem b.saveText := by
  unfold PBM.Save
  rw [if_pos hc]
  unfold ReadPBM FileSystem.content
  simp only [hp, if_true]

/-- C1: every bitmap `b` that `ReadPBM` returns (in particular from a well-formed token
    stream) is read back unchanged from the text `Save` writes for it: parsing that text
    gives a bitmap with the same `width`, `height`, `magicNumber` and pixel grid, and a
    `Save` to `image.pbm` followed by `ReadPBM` returns `b`.  This holds with the heap
    `mem` of the first parse, and with every heap `mem2` that provides the grid of `b`
    again (as `mem` itself does). -/
theorem Save_ReadPBM_roundtrip (mem : Memory) (fs : FileSystem) (filename : String) (b : PBM)
    (hread : ReadPBM mem fs filename = .ok b) :
    (ReadPBM.scan mem b.saveText = .ok b ∧
      ∀ (fs1 : FileSystem) (name : String), fs1.creatable "image.pbm" = true →
        (b.Save fs1 "image.pbm").2 = none ∧
        ReadPBM mem (b.Save fs1 "image.pbm").1 name = .ok b) ∧
    ∀ mem2 : Memory, gridAllocated mem2 b.width b.height = true →
      ReadPBM.scan mem2 b.saveText = .ok b ∧
      ∀ (fs1 : FileSystem) (name : String), fs1.creatable "image.pbm" = true →
        (b.Save fs1 "image.pbm").2 = none ∧
        ReadPBM mem2 (b.Save fs1 "image.pbm").1 name = .ok b := by
  have hall : ∀ mem2 : Memory, gridAllocated mem2 b.width b.height = true →
      ReadPBM.scan mem2 b.saveText = .ok b ∧
      ∀ (fs1 : FileSystem) (name : String), fs1.creatable "image.pbm" = true →
        (b.Save fs1 "image.pbm").2 = none ∧
        ReadPBM mem2 (b.Save fs1 "image.pbm").1 name = .ok b := by
    intro mem2 halloc2
    have hscan := scan_saveText_of_read hread halloc2
    refine ⟨hscan, ?_⟩
    intro fs1 name hc
    refine ⟨?_, ?_⟩
    · unfold PBM.Save
      rw [if_pos hc]
    · rw [ReadPBM_after_Save mem2 b fs1 "image.pbm" name hc rfl]
      exact hscan
  exact ⟨hall mem (gridAllocated_of_read hread), hall⟩

/-- Witness for C1: the bitmap read from the 3x2 example file is read back from the text
    saved for it. -/
theorem Save_ReadPBM_roundtrip_witness :
    ReadPBM.scan ampleMemory
        (⟨[[true, false, true], [false, true, false]], 3, 2, "P1"⟩ : PBM).saveText
      = .ok ⟨[[true, false, true], [false, true, false]], 3, 2, "P1"⟩ :=
  (Save_ReadPBM_roundtrip ampleMemory (singleFile "P1\n3 2\n1 0 1\n0 1 0\n") "image.pbm"
    ⟨[[true, false, true], [false, true, false]], 3, 2, "P1"⟩ (by rfl)).1.1

/-! ## Flip and Flop together -/

/-- C11: on a well-formed bitmap `Flip` followed by `Flop` and `Flop` followed by `Flip`
    both complete and give the same bitmap, hence the same pixel grid (the rows in
    reverse order, each reversed). -/
theorem Flip_Flop_commute (pbm : PBM) (hwf : pbm.WellFormed) :
    pbm.Flip.2 = none ∧ pbm.Flop.2 = none ∧
    pbm.Flip.1.Flop = pbm.Flop.1.Flip ∧
    pbm.Flip.1.Flop = ({ pbm with data := (pbm.data.map List.reverse).reverse }, none) := by
  rw [Flip_eq pbm hwf, Flop_eq pbm hwf]
  simp only
  rw [Flop_eq _ (wellFormed_map_rows hwf _ (fun row => by simp)),
    Flip_eq _ (wellFormed_reverse_rows hwf)]
  refine ⟨trivial, trivial, ?_, rfl⟩
  refine Prod.ext (pbm_eq_of_fields ?_ rfl rfl rfl) rfl
  show (pbm.data.map List.reverse).reverse = pbm.data.reverse.map List.reverse
  exact (List.map_reverse _ _).symm

/-- Witness for C11 on a 3x2 bitmap. -/
theorem Flip_Flop_commute_witness :
    (⟨[[true, false, false], [false, true, false]], 3, 2, "P1"⟩ : PBM).Flip.1.Flop
      = (⟨[[false, true, false], [false, false, true]], 3, 2, "P1"⟩, none) :=
  (Flip_Flop_commute ⟨[[true, false, false], [false, true, false]], 3, 2, "P1"⟩
    (by decide)).2.2.2.trans (by decide)

/-! ## The transforms, pixel by pixel -/

theorem At_in_range (pbm : PBM) (hwf : pbm.WellFormed) (x y : Nat)
    (hx : (x : Int) < pbm.width) (hy : (y : Int) < pbm.height) :
    ∃ row b, pbm.data[y]? = some row ∧ row[x]? = some b ∧ (row.length : Int) = pbm.width ∧
      pbm.At (x : Int) (y : Int) = .ok b := by
  have hylt : y < pbm.data.length := by have := hwf.1; omega
  have hlen := wellFormed_row_length hwf y hylt
  have hxlt : x < (pbm.data.get ⟨y, hylt⟩).length := by omega
  have h1 : pbm.data[y]? = some (pbm.data.get ⟨y, hylt⟩) := by
    simp [List.getElem?_eq_getElem hylt]
  have h2 : (pbm.data.get ⟨y, hylt⟩)[x]? = some ((pbm.data.get ⟨y, hylt⟩).get ⟨x, hxlt⟩) := by
    simp [List.getElem?_eq_getElem hxlt]
  exact ⟨_, _, h1, h2, hlen, At_of_getElem? pbm x y _ _ h1 h2⟩

/-- C12: on a well-formed bitmap `Invert` completes, and at every in-range coordinate
    `At(x, y)` after `Invert` is the negation of `At(x, y)` before it. -/
theorem Invert_negates (pbm : PBM) (hwf : pbm.WellFormed) :
    pbm.Invert.2 = none ∧
    ∀ x y : Int, 0 ≤ x → x < pbm.width → 0 ≤ y → y < pbm.height →
      ∃ b, pbm.At x y = .ok b ∧ pbm.Invert.1.At x y = .ok (!b) := by
  rw [Invert_eq pbm hwf]
  refine ⟨rfl, ?_⟩
  intro x y hx0 hx1 hy0 hy1
  obtain ⟨n, rfl⟩ := Int.eq_ofNat_of_zero_le hy0
  obtain ⟨m, rfl⟩ := Int.eq_ofNat_of_zero_le hx0
  obtain ⟨row, b, h1, h2, _, hat⟩ := At_in_range pbm hwf m n hx1 hy1
  refine ⟨b, hat, ?_⟩
  apply At_of_getElem? _ m n (row.map fun b => !b)
  · show (pbm.data.map (List.map fun b => !b))[n]? = _
    rw [List.getElem?_map, h1]
    rfl
  · rw [List.getElem?_map, h2]
    rfl

/-- Witness for C12: the grid `[[T,F,T],[F,T,F]]` becomes `[[F,T,F],[T,F,T]]`. -/
theorem Invert_negates_witness :
    (⟨[[true, false, true], [false, true, false]], 3, 2, "P1"⟩ : PBM).Invert
        = (⟨[[false, true, false], [true, false, true]], 3, 2, "P1"⟩, none) ∧
    ∃ b, (⟨[[true, false, true], [false, true, false]], 3, 2, "P1"⟩ : PBM).At 1 0 = .ok b ∧
      (⟨[[true, false, true], [false, true, false]], 3, 2, "P1"⟩ : PBM).Invert.1.At 1 0
        = .ok (!b) :=
  ⟨by decide,
    (Invert_negates ⟨[[true, false, true], [false, true, false]], 3, 2, "P1"⟩ (by decide)).2
      1 0 (by decide) (by decide) (by decide) (by decide)⟩

/-- C13: on a well-formed bitmap of width `w`, `Flip` completes and at every in-range
    coordinate `At(x, y)` after `Flip` is `At(w-1-x, y)` before it; the middle column of
    an odd-width image is unchanged, and every row stays at its position (row `y` after
    `Flip` is row `y` reversed). -/
theorem Flip_mirrors (pbm : PBM) (hwf : pbm.WellFormed) :
    pbm.Flip.2 = none ∧
    (∀ x y : Int, 0 ≤ x → x < pbm.width → 0 ≤ y → y < pbm.height →
      ∃ b, pbm.At (pbm.width - 1 - x) y = .ok b ∧ pbm.Flip.1.At x y = .ok b) ∧
    (∀ x y : Int, 0 ≤ x → pbm.width = 2 * x + 1 → 0 ≤ y → y < pbm.height →
      pbm.Flip.1.At x y = pbm.At x y) ∧
    (∀ (y : Nat) (row : List Bool), pbm.data[y]? = some row →
      pbm.Flip.1.data[y]? = some row.reverse) := by
  rw [Flip_eq pbm hwf]
  have hmain : ∀ x y : Int, 0 ≤ x → x < pbm.width → 0 ≤ y → y < pbm.height →
      ∃ b, pbm.At (pbm.width - 1 - x) y = .ok b ∧
        PBM.At { pbm with data := pbm.data.map List.reverse } x y = .ok b := by
    intro x y hx0 hx1 hy0 hy1
    obtain ⟨n, rfl⟩ := Int.eq_ofNat_of_zero_le hy0
    obtain ⟨m, rfl⟩ := Int.eq_ofNat_of_zero_le hx0
    obtain ⟨row, _, h1, _, hlen, _⟩ := At_in_range pbm hwf m n hx1 hy1
    have hcast : pbm.width - 1 - (m : Int) = ((row.length - 1 - m : Nat) : Int) := by omega
    have hk : row.length - 1 - m < row.length := by omega
    have h3 : row[row.length - 1 - m]? = some (row.get ⟨row.length - 1 - m, hk⟩) := by
      simp [List.getElem?_eq_getElem hk]
    refine ⟨row.get ⟨row.length - 1 - m, hk⟩, ?_, ?_⟩
    · rw [hcast]
      exact At_of_getElem? pbm _ n row _ h1 h3
    · apply At_of_getElem? _ m n row.reverse
      · show (pbm.data.map List.reverse)[n]? = _
        rw [List.getElem?_map, h1]
        rfl
      · rw [List.getElem?_reverse (by omega), h3]
  refine ⟨rfl, hmain, ?_, ?_⟩
  · intro x y hx0 hw hy0 hy1
    obtain ⟨b, hb1, hb2⟩ := hmain x y hx0 (by omega) hy0 hy1
    have hx : pbm.width - 1 - x = x := by omega
    rw [hx] at hb1
    rw [hb1]
    exact hb2
  · intro y row hrow
    show (pbm.data.map List.reverse)[y]? = _
    rw [List.getElem?_map, hrow]
    rfl

/-- Witness for C13 on a 3x2 bitmap at `(0, 0)`. -/
theorem Flip_mirrors_witness :
    ∃ b, (⟨[[true, false, false], [false, true, false]], 3, 2, "P1"⟩ : PBM).At (3 - 1 - 0) 0
        = .ok b ∧
      (⟨[[true, false, false], [false, true, false]], 3, 2, "P1"⟩ : PBM).Flip.1.At 0 0
        = .ok b :=
  (Flip_mirrors ⟨[[true, false, false], [false, true, false]], 3, 2, "P1"⟩
    (by decide)).2.1 0 0 (by decide) (by decide) (by decide) (by decide)

/-- C14: on a well-formed bitmap of height `h`, `Flop` completes and at every in-range
    coordinate `At(x, y)` after `Flop` is `At(x, h-1-y)` before it; the grid after `Flop`
    is the list of the same rows in reverse order. -/
theorem Flop_mirrors (pbm : PBM) (hwf : pbm.WellFormed) :
    pbm.Flop.2 = none ∧
    (∀ x y : Int, 0 ≤ x → x < pbm.width → 0 ≤ y → y < pbm.height →
      ∃ b, pbm.At x (pbm.height - 1 - y) = .ok b ∧ pbm.Flop.1.At x y = .ok b) ∧
    pbm.Flop.1.data = pbm.data.reverse := by
  rw [Flop_eq pbm hwf]
  refine ⟨rfl, ?_, rfl⟩
  intro x y hx0 hx1 hy0 hy1
  obtain ⟨n, rfl⟩ := Int.eq_ofNat_of_zero_le hy0
  obtain ⟨m, rfl⟩ := Int.eq_ofNat_of_zero_le hx0
  have hh := wellFormed_height_eq hwf
  have hcast : pbm.height - 1 - (n : Int) = ((pbm.data.length - 1 - n : Nat) : Int) := by omega
  obtain ⟨row, b, h1, h2, _, hat⟩ :=
    At_in_range pbm hwf m (pbm.data.length - 1 - n) hx1 (by omega)
  refine ⟨b, by rw [hcast]; exact hat, ?_⟩
  apply At_of_getElem? _ m n row b _ h2
  show pbm.data.reverse[n]? = _
  rw [List.getElem?_reverse (by omega), h1]

/-- Witness for C14 on a 2x3 bitmap at `(0, 0)`. -/
theorem Flop_mirrors_witness :
    ∃ b, (⟨[[true, false], [false, true], [false, false]], 2, 3, "P1"⟩ : PBM).At 0 (3 - 1 - 0)
        = .ok b ∧
      (⟨[[true, false], [false, true], [false, false]], 2, 3, "P1"⟩ : PBM).Flop.1.At 0 0
        = .ok b :=
  (Flop_mirrors ⟨[[true, false], [false, true], [false, false]], 2, 3, "P1"⟩
    (by decide)).2.1 0 0 (by decide) (by decide) (by decide) (by decide)

/-! ## What the transforms leave alone -/

theorem forLoop_preserves {σ : Type} (body : Nat → σ → σ × Option Failure) (P : σ → Prop)
    (hbody : ∀ k t, P t → P (body k t).1) :
    ∀ (count i : Nat) (s : σ), P s → P (forLoop body count i s).1 := by
  intro count
  induction count with
  | zero => intro i s h; exact h
  | succ c ih =>
    intro i s h
    have h1 := hbody i s h
    unfold forLoop
    cases hb : body i s with
    | mk s1 f =>
      rw [hb] at h1
      cases f with
      | none => exact ih (i + 1) s1 h1
      | some f => exact h1

theorem atomic_preserves {σ : Type} (P : σ → Prop) (s : σ) (r : Except Failure σ)
    (hs : P s) (hr : ∀ s1, r = .ok s1 → P s1) : P (atomic s r).1 := by
  unfold atomic
  cases r with
  | error f => exact hs
  | ok s1 => exact hr s1 rfl

theorem sameHeader_refl (p : PBM) : SameHeader p p := ⟨rfl, rfl, rfl⟩

theorem sameHeader_data {p q : PBM} (h : SameHeader p q) (d : List (List Bool)) :
    SameHeader p { q with data := d } := h

theorem Set_sameHeader (pbm : PBM) (x y : Int) (value : Bool) :
    SameHeader pbm (pbm.Set x y value).1 := by
  unfold PBM.Set
  apply atomic_preserves (SameHeader pbm) _ _ (sameHeader_refl pbm)
  intro s1 hs1
  cases ha : assign2 pbm.data y x value with
  | error f => rw [ha] at hs1; cases hs1
  | ok d =>
    rw [ha] at hs1
    cases hs1
    exact sameHeader_refl pbm

theorem Flop_sameHeader (pbm : PBM) : SameHeader pbm pbm.Flop.1 := by
  unfold PBM.Flop
  apply forLoop_preserves _ (SameHeader pbm) _ _ _ _ (sameHeader_refl pbm)
  intro k t ht
  apply atomic_preserves (SameHeader pbm) _ _ ht
  intro s1 hs1
  cases ha : swap t.data (k : Int) (t.height - (k : Int) - 1) with
  | error f => rw [ha] at hs1; cases hs1
  | ok d =>
    rw [ha] at hs1
    cases hs1
    exact sameHeader_data ht d

theorem Flip_sameHeader (pbm : PBM) : SameHeader pbm pbm.Flip.1 := by
  unfold PBM.Flip
  apply forLoop_preserves _ (SameHeader pbm) _ _ _ _ (sameHeader_refl pbm)
  intro i t ht
  apply forLoop_preserves _ (SameHeader pbm) _ _ _ _ ht
  intro j u hu
  apply atomic_preserves (SameHeader pbm) _ _ hu
  intro s1 hs1
  cases h1 : index u.data (i : Int) with
  | error f => simp [h1, bind, Except.bind] at hs1
  | ok row =>
    cases h2 : swap row (j : Int) (u.width - (j : Int) - 1) with
    | error f => simp [h1, h2, bind, Except.bind] at hs1
    | ok row1 =>
      cases h3 : assign u.data (i : Int) row1 with
      | error f => simp [h1, h2, h3, bind, Except.bind] at hs1
      | ok d =>
        simp [h1, h2, h3, bind, Except.bind, pure, Except.pure] at hs1
        rw [← hs1]
        exact sameHeader_data hu d

theorem Invert_sameHeader (pbm : PBM) : SameHeader pbm pbm.Invert.1 := by
  unfold PBM.Invert
  apply forLoop_preserves _ (SameHeader pbm) _ _ _ _ (sameHeader_refl pbm)
  intro i t ht
  apply forLoop_preserves _ (SameHeader pbm) _ _ _ _ ht
  intro j u hu
  apply atomic_preserves (SameHeader pbm) _ _ hu
  intro s1 hs1
  cases h1 : index u.data (i : Int) with
  | error f => simp [h1, bind, Except.bind] at hs1
  | ok row =>
    cases h2 : index row (j : Int) with
    | error f => simp [h1, h2, bind, Except.bind] at hs1
    | ok v =>
      cases h3 : assign2 u.data (i : Int) (j : Int) (!v) with
      | error f => simp [h1, h2, h3, bind, Except.bind] at hs1
      | ok d =>
        simp [h1, h2, h3, bind, Except.bind, pure, Except.pure] at hs1
        rw [← hs1]
        exact sameHeader_data hu d

/-- C15: `SetMagicNumber(s)` is total and stores `s` as it is, leaving width, height and
    every pixel unchanged; and `Set`, `Invert`, `Flip` and `Flop` leave the magic number
    unchanged, on every bitmap and whether or not they complete. -/
theorem magicNumber_frame (pbm : PBM) (s : String) :
    (pbm.SetMagicNumber s).magicNumber = s ∧
    (pbm.SetMagicNumber s).width = pbm.width ∧
    (pbm.SetMagicNumber s).height = pbm.height ∧
    (pbm.SetMagicNumber s).data = pbm.data ∧
    (∀ x y : Int, (pbm.SetMagicNumber s).At x y = pbm.At x y) ∧
    (∀ (x y : Int) (value : Bool), (pbm.Set x y value).1.magicNumber = pbm.magicNumber) ∧
    pbm.Invert.1.magicNumber = pbm.magicNumber ∧
    pbm.Flip.1.magicNumber = pbm.magicNumber ∧
    pbm.Flop.1.magicNumber = pbm.magicNumber :=
  ⟨rfl, rfl, rfl, rfl, fun _ _ => rfl, fun x y value => (Set_sameHeader pbm x y value).2.2,
    (Invert_sameHeader pbm).2.2, (Flip_sameHeader pbm).2.2, (Flop_sameHeader pbm).2.2⟩

/-! ## The shape invariant -/

theorem makeCheck_none_bounds (mem : Memory) (k elemSize : Nat) (n : Int)
    (h : makeCheck mem k elemSize n = none) : 0 ≤ n ∧ n.toNat * elemSize ≤ maxAlloc := by
  unfold makeCheck at h
  by_cases h1 : n < 0 ∨ maxAlloc < n.toNat * elemSize
  · rw [if_pos h1] at h; cases h
  · omega

theorem gridAllocated_nonneg (mem : Memory) (w h : Int) (halloc : gridAllocated mem w h = true) :
    0 ≤ h ∧ (0 < h → 0 ≤ w) := by
  obtain ⟨ha, hb⟩ := (gridAllocated_iff mem w h).1 halloc
  refine ⟨(makeCheck_none_bounds mem 0 24 h ha).1, ?_⟩
  intro hpos
  have h0 := List.all_eq_true.1 hb 0 (List.mem_range.2 (by omega))
  have h1 : makeCheck mem (0 + 1) 1 w = none := by simpa using h0
  exact (makeCheck_none_bounds mem (0 + 1) 1 w h1).1

theorem parseTokens_wellFormed {mem : Memory} {toks : List String} {b : PBM}
    (hb : parseTokens mem toks = .ok b) : b.WellFormed := by
  obtain ⟨w, h, _, _, halloc, rfl⟩ := parseTokens_ok_inv hb
  obtain ⟨hh0, hw0⟩ := gridAllocated_nonneg mem w h halloc
  unfold PBM.WellFormed gridOfTokens
  refine ⟨by simp; omega, ?_⟩
  intro row hrow
  obtain ⟨y, hy, rfl⟩ := List.mem_map.1 hrow
  have hy1 : y < h.toNat := List.mem_range.1 hy
  have : 0 ≤ w := hw0 (by omega)
  simp
  omega

theorem ReadPBM_wellFormed {mem : Memory} {fs : FileSystem} {filename : String} {b : PBM}
    (hread : ReadPBM mem fs filename = .ok b) : b.WellFormed := by
  unfold ReadPBM at hread
  cases hc : fs.content "image.pbm" with
  | none => rw [hc] at hread; cases hread
  | some content =>
    rw [hc] at hread
    simp only at hread
    rw [scan_eq_parseTokens] at hread
    exact parseTokens_wellFormed hread

theorem Set_wellFormed (pbm : PBM) (hwf : pbm.WellFormed) (x y : Int) (value : Bool) :
    (pbm.Set x y value).1.WellFormed := by
  by_cases hin : 0 ≤ x ∧ x < pbm.width ∧ 0 ≤ y ∧ y < pbm.height
  · obtain ⟨hx0, hx1, hy0, hy1⟩ := hin
    obtain ⟨n, rfl⟩ := Int.eq_ofNat_of_zero_le hy0
    obtain ⟨m, rfl⟩ := Int.eq_ofNat_of_zero_le hx0
    obtain ⟨row, hrow, _, hset⟩ := Set_ok pbm hwf m n value hx1 hy1
    rw [hset]
    have hn : n < pbm.data.length := getElem?_lt hrow
    have hrmem : row ∈ pbm.data := by
      rw [List.getElem?_eq_getElem hn] at hrow
      have : pbm.data[n] = row := by simpa using hrow
      rw [← this]
      exact List.getElem_mem _
    refine ⟨by simpa using hwf.1, ?_⟩
    intro r hr
    rcases List.mem_or_eq_of_mem_set hr with h | h
    · exact hwf.2 r h
    · rw [h, List.length_set]
      exact hwf.2 row hrmem
  · have herr : assign2 pbm.data y x value = .error .indexPanic := by
      apply assign2_error
      by_cases hy : y < 0 ∨ (pbm.data.length : Int) ≤ y
      · exact Or.inl hy
      · right
        intro row hrow
        have := hwf.2 row hrow
        have := hwf.1
        omega
    unfold PBM.Set
    rw [herr]
    exact hwf

/-- C16: every bitmap `ReadPBM` returns has exactly `height` rows of exactly `width`
    pixels, and on a bitmap of that shape each of `Set`, `Invert`, `Flip`, `Flop` and
    `SetMagicNumber` gives a bitmap of that shape again with the same `Size()`. -/
theorem shape_invariant (pbm : PBM) (hwf : pbm.WellFormed) :
    (∀ (mem : Memory) (fs : FileSystem) (filename : String) (b : PBM),
      ReadPBM mem fs filename = .ok b → b.WellFormed) ∧
    (∀ (x y : Int) (value : Bool),
      (pbm.Set x y value).1.WellFormed ∧ (pbm.Set x y value).1.Size = pbm.Size) ∧
    (pbm.Invert.1.WellFormed ∧ pbm.Invert.1.Size = pbm.Size) ∧
    (pbm.Flip.1.WellFormed ∧ pbm.Flip.1.Size = pbm.Size) ∧
    (pbm.Flop.1.WellFormed ∧ pbm.Flop.1.Size = pbm.Size) ∧
    (∀ s : String, (pbm.SetMagicNumber s).WellFormed ∧ (pbm.SetMagicNumber s).Size = pbm.Size) := by
  refine ⟨fun mem fs filename b h => ReadPBM_wellFormed h, ?_, ?_, ?_, ?_, ?_⟩
  · intro x y value
    have hs := Set_sameHeader pbm x y value
    exact ⟨Set_wellFormed pbm hwf x y value, by unfold PBM.Size; rw [hs.1, hs.2.1]⟩
  · rw [Invert_eq pbm hwf]
    exact ⟨wellFormed_map_rows hwf _ (fun row => by simp), rfl⟩
  · rw [Flip_eq pbm hwf]
    exact ⟨wellFormed_map_rows hwf _ (fun row => by simp), rfl⟩
  · rw [Flop_eq pbm hwf]
    exact ⟨wellFormed_reverse_rows hwf, rfl⟩
  · intro s
    exact ⟨hwf, rfl⟩

/-- Witness for C16: the bitmap read from the 3x2 example file has the shape, and so has
    its `Flip`. -/
theorem shape_invariant_witness :
    (∀ b, ReadPBM ampleMemory (singleFile "P1\n3 2\n1 0 1\n0 1 0\n") "image.pbm" = .ok b →
      b.WellFormed) ∧
    (⟨[[true, false, true], [false, true, false]], 3, 2, "P1"⟩ : PBM).Flip.1.WellFormed :=
  ⟨(shape_invariant ⟨[[true, false, true], [false, true, false]], 3, 2, "P1"⟩ (by decide)).1
      ampleMemory (singleFile "P1\n3 2\n1 0 1\n0 1 0\n") "image.pbm",
    (shape_invariant ⟨[[true, false, true], [false, true, false]], 3, 2, "P1"⟩
      (by decide)).2.2.2.1.1⟩

/-! ## Headers with a zero or negative size -/

theorem gridOfTokens_zero_width (H : Nat) (pixels : List String) :
    gridOfTokens 0 H pixels = List.replicate H [] := by
  unfold gridOfTokens
  apply List.ext_getElem?
  intro y
  rw [List.getElem?_map]
  by_cases hy : y < H
  · rw [List.getElem?_range hy, List.getElem?_replicate, if_pos hy]
    rfl
  · rw [List.getElem?_eq_none (by simp; omega), List.getElem?_eq_none (by simp; omega)]
    rfl

theorem ReadPBM_header_texts (mem : Memory) (fs : FileSystem)
    (filename content t0 t1 t2 : String) (rest : List String)
    (hopen : fs.content "image.pbm" = some content)
    (htoks : ScanWords content.data [] = t0 :: t1 :: t2 :: rest)
    (hfit : tokensFit 3 content = true) :
    ∃ toks, ReadPBM mem fs filename = parseTokens mem toks ∧
      toks.getD 0 "" = t0 ∧ toks.getD 1 "" = t1 ∧ toks.getD 2 "" = t2 := by
  refine ⟨_, ReadPBM_eq_parseTokens mem fs filename content hopen, ?_, ?_, ?_⟩
  · rw [scannerTexts_getD 3 _ hfit 0 (Or.inl (by omega)), wordsWithEnds_fst, htoks]; rfl
  · rw [scannerTexts_getD 3 _ hfit 1 (Or.inl (by omega)), wordsWithEnds_fst, htoks]; rfl
  · rw [scannerTexts_getD 3 _ hfit 2 (Or.inl (by omega)), wordsWithEnds_fst, htoks]; rfl

/-- C17 as stated fails: with the header `0 0`, the header `0 2` and the header `-3 0`
    (width or height zero or negative) `ReadPBM` returns a bitmap. -/
theorem ReadPBM_nonpositive_header_counterexample :
    ReadPBM ampleMemory (singleFile "P1\n0 0\n") "image.pbm" = .ok ⟨[], 0, 0, "P1"⟩ ∧
    ReadPBM ampleMemory (singleFile "P1\n0 2\n") "image.pbm" = .ok ⟨[[], []], 0, 2, "P1"⟩ ∧
    ReadPBM ampleMemory (singleFile "P1\n-3 0\n") "image.pbm" = .ok ⟨[], -3, 0, "P1"⟩ :=
  ⟨by rfl, by rfl, by rfl⟩

/-- C17, amended: for a header of tokens that fit the scanner's buffer and hold the `int`
    values `w` and `h`: when `h < 0`, or the `24*h` bytes of the slice of rows exceed
    `maxAlloc`, `ReadPBM` returns no bitmap and stops with the run-time panic
    `makeslice: len out of range`; when `h = 0` (whatever `w`) it returns a bitmap
    without rows; when `h > 0`, the slice of rows is within `maxAlloc` and the heap
    provides it, `ReadPBM` stops with that panic at the first row if `w < 0`, and returns
    a bitmap of `h` empty rows if `w = 0`; when `h > 0`, the slice of rows is within
    `maxAlloc` and the heap does not provide it, the program dies with `out of memory`. -/
theorem ReadPBM_nonpositive_header (mem : Memory) (fs : FileSystem)
    (filename content t0 t1 t2 : String)
    (rest : List String) (w h : Int)
    (hopen : fs.content "image.pbm" = some content)
    (htoks : ScanWords content.data [] = t0 :: t1 :: t2 :: rest)
    (hfit : tokensFit 3 content = true)
    (hw : decimalValue t1 = some w) (hh : decimalValue t2 = some h)
    (hwlo : -(2 ^ 63 : Int) ≤ w) (hwhi : w < 2 ^ 63)
    (hhlo : -(2 ^ 63 : Int) ≤ h) (hhhi : h < 2 ^ 63) :
    ((h < 0 ∨ maxAlloc < h.toNat * 24) → ReadPBM mem fs filename = .error .makeslicePanic) ∧
    (h = 0 → ReadPBM mem fs filename = .ok ⟨[], w, 0, t0⟩) ∧
    (0 < h → h.toNat * 24 ≤ maxAlloc → mem 0 (h.toNat * 24) = true → w < 0 →
      ReadPBM mem fs filename = .error .makeslicePanic) ∧
    (0 < h → h.toNat * 24 ≤ maxAlloc → mem 0 (h.toNat * 24) = true → w = 0 →
      ReadPBM mem fs filename = .ok ⟨List.replicate h.toNat [], 0, h, t0⟩) ∧
    (0 < h → h.toNat * 24 ≤ maxAlloc → mem 0 (h.toNat * 24) = false →
      ReadPBM mem fs filename = .error .outOfMemory) := by
  obtain ⟨toks, hread, g0, g1, g2⟩ :=
    ReadPBM_header_texts mem fs filename content t0 t1 t2 rest hopen htoks hfit
  rw [hread]
  unfold parseTokens
  simp only [g0, g1, g2, Atoi_of_decimalValue hw hwlo hwhi, Atoi_of_decimalValue hh hhlo hhhi]
  have houter : 0 < h → h.toNat * 24 ≤ maxAlloc → mem 0 (h.toNat * 24) = true →
      makeCheck mem 0 24 h = none := by
    intro h1 h2 h3
    unfold makeCheck
    rw [if_neg (by omega), if_neg (by omega), if_pos h3]
  refine ⟨?_, ?_, ?_, ?_, ?_⟩
  rotate_right
  · intro h1 h2 h3
    have : makeCheck mem 0 24 h = some .outOfMemory := by
      unfold makeCheck
      rw [if_neg (by omega), if_neg (by omega), if_neg (by rw [h3]; decide)]
    rw [this]
  · intro hbad
    have : makeCheck mem 0 24 h = some .makeslicePanic := by
      unfold makeCheck
      rw [if_pos hbad]
    rw [this]
  · intro h0
    subst h0
    have : makeCheck mem 0 24 0 = none := by
      unfold makeCheck
      rw [if_neg (by simp), if_pos (by simp)]
    rw [this]
    rfl
  · intro h1 h2 h3 hwneg
    rw [houter h1 h2 h3]
    simp only
    have hrow : ∀ i, makeCheck mem (i + 1) 1 w = some .makeslicePanic := by
      intro i
      unfold makeCheck
      rw [if_pos (Or.inl hwneg)]
    have hne : ¬ ((List.range h.toNat).all fun i =>
        (makeCheck mem (i + 1) 1 w).isNone) = true := by
      intro hall
      have := List.all_eq_true.1 hall 0 (List.mem_range.2 (by omega))
      rw [hrow 0] at this
      cases this
    rw [if_neg hne, if_pos (Or.inl hwneg)]
  · intro h1 h2 h3 hw0
    subst hw0
    rw [houter h1 h2 h3]
    simp only
    have hrow : ∀ i, makeCheck mem (i + 1) 1 0 = none := by
      intro i
      unfold makeCheck
      rw [if_neg (by simp), if_pos (by simp)]
    have hall : ((List.range h.toNat).all fun i =>
        (makeCheck mem (i + 1) 1 0).isNone) = true := by
      apply List.all_eq_true.2
      intro i _
      rw [hrow i]
      rfl
    rw [if_pos hall]
    congr 2
    exact gridOfTokens_zero_width _ _

/-- Witness for the amended C17 on the header `-3 2`. -/
theorem ReadPBM_nonpositive_header_witness :
    ReadPBM ampleMemory (singleFile "P1\n-3 2\n") "image.pbm" = .error .makeslicePanic :=
  (ReadPBM_nonpositive_header ampleMemory (singleFile "P1\n-3 2\n") "image.pbm" "P1\n-3 2\n"
    "P1" "-3" "2" [] (-3) 2 rfl (by rfl) (by rfl) (by rfl) (by rfl) (by decide) (by decide)
    (by decide) (by decide)).2.2.1 (by decide) (by decide) (by rfl) (by decide)

/-! ## The file name argument -/

/-- C18 as stated fails: `./image.pbm` is not the string `image.pbm`, yet it names the
    same file, so that a `Save` to `./image.pbm` followed by `ReadPBM` of `./image.pbm`
    reads back the saved image (a black pixel, where the file held a white one). -/
theorem ReadPBM_ignores_filename_counterexample :
    "./image.pbm" ≠ "image.pbm" ∧
    ReadPBM ampleMemory (aliasedFile "P1\n1 1\n0 \n") "./image.pbm"
      = .ok ⟨[[false]], 1, 1, "P1"⟩ ∧
    ReadPBM ampleMemory
        ((⟨[[true]], 1, 1, "P1"⟩ : PBM).Save (aliasedFile "P1\n1 1\n0 \n") "./image.pbm").1
        "./image.pbm" = .ok ⟨[[true]], 1, 1, "P1"⟩ :=
  ⟨by decide, by rfl, by rfl⟩

/-- C18, amended: `ReadPBM` does not depend on its file name argument: for every file
    system and all names `f1`, `f2` the results agree and are the parse of the fixed path
    `image.pbm` (or its open error).  Hence `Save(p)` followed by `ReadPBM(p)` reads back
    the saved image only when `p` names the same file as `image.pbm` (as `image.pbm`
    itself and `./image.pbm` do): a `Save` to a path naming another file does not change
    what `ReadPBM` returns, whatever was saved, while after a `Save` to a path naming
    that file `ReadPBM` returns the parse of the saved text, which is the saved bitmap
    when that bitmap came from `ReadPBM`. -/
theorem ReadPBM_ignores_filename (mem : Memory) (fs : FileSystem) (f1 f2 : String) :
    ReadPBM mem fs f1 = ReadPBM mem fs f2 ∧
    ReadPBM mem fs f1 = (match fs.content "image.pbm" with
      | none => .error .openError
      | some content => ReadPBM.scan mem content) ∧
    (∀ (b : PBM) (p : String), fs.resolve p ≠ fs.resolve "image.pbm" →
      ReadPBM mem (b.Save fs p).1 p = ReadPBM mem fs p) ∧
    (∀ (b : PBM) (p : String), fs.creatable p = true →
      fs.resolve p = fs.resolve "image.pbm" →
      ReadPBM mem (b.Save fs p).1 p = ReadPBM.scan mem b.saveText) ∧
    (∀ (b : PBM) (fs0 : FileSystem) (f0 p : String), ReadPBM mem fs0 f0 = .ok b →
      fs.creatable p = true → fs.resolve p = fs.resolve "image.pbm" →
      ReadPBM mem (b.Save fs p).1 p = .ok b) := by
  refine ⟨rfl, ?_, ?_, ?_, ?_⟩
  · unfold ReadPBM
    cases fs.content "image.pbm" <;> rfl
  · intro b p hp
    unfold PBM.Save
    by_cases hc : fs.creatable p = true
    · rw [if_pos hc]
      unfold ReadPBM FileSystem.content
      have hne : ¬ (fs.resolve "image.pbm" = fs.resolve p) := fun h => hp h.symm
      simp only [hne, if_false]
    · rw [if_neg hc]
  · intro b p hc hp
    exact ReadPBM_after_Save mem b fs p p hc hp
  · intro b fs0 f0 p hread hc hp
    rw [ReadPBM_after_Save mem b fs p p hc hp]
    exact scan_saveText_of_read hread (gridAllocated_of_read hread)

/-- Witness for the amended C18: with a one-pixel white image at `image.pbm`, saving a
    black pixel to `copy.pbm` and reading `copy.pbm` returns the white image, and saving
    it to `image.pbm` and reading returns the black one. -/
theorem ReadPBM_ignores_filename_witness :
    ReadPBM ampleMemory
        ((⟨[[true]], 1, 1, "P1"⟩ : PBM).Save (singleFile "P1\n1 1\n0 \n") "copy.pbm").1
        "copy.pbm" = .ok ⟨[[false]], 1, 1, "P1"⟩ ∧
    ReadPBM ampleMemory
        ((⟨[[true]], 1, 1, "P1"⟩ : PBM).Save (singleFile "P1\n1 1\n0 \n") "image.pbm").1
        "image.pbm" = .ok ⟨[[true]], 1, 1, "P1"⟩ :=
  ⟨((ReadPBM_ignores_filename ampleMemory (singleFile "P1\n1 1\n0 \n") "copy.pbm"
      "copy.pbm").2.2.1 ⟨[[true]], 1, 1, "P1"⟩ "copy.pbm" (by decide)).trans (by rfl),
    ((ReadPBM_ignores_filename ampleMemory (singleFile "P1\n1 1\n0 \n") "a" "b").2.2.2.1
      ⟨[[true]], 1, 1, "P1"⟩ "image.pbm" (by rfl) (by rfl)).trans (by rfl)⟩

/-! ## Degenerate sizes -/

theorem reverse_of_length_le_one {α : Type} (l : List α) (h : l.length ≤ 1) :
    l.reverse = l := by
  match l, h with
  | [], _ => rfl
  | [_], _ => rfl
  | _ :: _ :: _, h => simp at h

/-- C19: on a well-formed bitmap `Flip` changes nothing when `width ≤ 1` and `Flop`
    changes nothing when `height ≤ 1`; on a 1x1 bitmap both are no-ops. -/
theorem Flip_Flop_degenerate (pbm : PBM) (hwf : pbm.WellFormed) :
    (pbm.width ≤ 1 → pbm.Flip = (pbm, none)) ∧
    (pbm.height ≤ 1 → pbm.Flop = (pbm, none)) ∧
    (pbm.width = 1 → pbm.height = 1 → pbm.Flip = (pbm, none) ∧ pbm.Flop = (pbm, none)) := by
  have hflip : pbm.width ≤ 1 → pbm.Flip = (pbm, none) := by
    intro hw
    rw [Flip_eq pbm hwf]
    refine Prod.ext (pbm_eq_of_fields ?_ rfl rfl rfl) rfl
    show pbm.data.map List.reverse = pbm.data
    conv => rhs; rw [← List.map_id pbm.data]
    apply List.map_congr_left
    intro row hrow
    have := hwf.2 row hrow
    exact reverse_of_length_le_one row (by omega)
  have hflop : pbm.height ≤ 1 → pbm.Flop = (pbm, none) := by
    intro hh
    rw [Flop_eq pbm hwf]
    refine Prod.ext (pbm_eq_of_fields ?_ rfl rfl rfl) rfl
    show pbm.data.reverse = pbm.data
    have := hwf.1
    exact reverse_of_length_le_one pbm.data (by omega)
  exact ⟨hflip, hflop, fun hw hh => ⟨hflip (by omega), hflop (by omega)⟩⟩

/-- Witness for C19 on a 1x1 bitmap. -/
theorem Flip_Flop_degenerate_witness :
    (⟨[[true]], 1, 1, "P1"⟩ : PBM).Flip = (⟨[[true]], 1, 1, "P1"⟩, none) ∧
    (⟨[[true]], 1, 1, "P1"⟩ : PBM).Flop = (⟨[[true]], 1, 1, "P1"⟩, none) :=
  (Flip_Flop_degenerate ⟨[[true]], 1, 1, "P1"⟩ (by decide)).2.2 (by decide) (by decide)

/-! ## Trailing tokens -/

theorem parseTokens_header_congr (mem : Memory) (toks1 toks2 : List String) (w h : Int)
    (e1 : toks1.getD 1 "" = toks2.getD 1 "") (e2 : toks1.getD 2 "" = toks2.getD 2 "")
    (hw : Atoi (toks1.getD 1 "") = .ok w) (hh : Atoi (toks1.getD 2 "") = .ok h)
    (halloc : gridAllocated mem w h = false) :
    parseTokens mem toks1 = parseTokens mem toks2 := by
  unfold parseTokens
  rw [← e1, ← e2]
  simp only [hw, hh]
  cases hm : makeCheck mem 0 24 h with
  | some f => rfl
  | none =>
    simp only
    have hb : ¬ ((List.range h.toNat).all fun i =>
        (makeCheck mem (i + 1) 1 w).isNone) = true := by
      intro hb
      have := (gridAllocated_iff mem w h).2 ⟨hm, hb⟩
      rw [halloc] at this
      cases this
    rw [if_neg hb, if_neg hb]

/-- C20 as stated fails: the stream `P1 0 9223372036854775807` is a header with no pixel
    token owed, yet `ReadPBM` on it followed by the token `1` does not succeed: it stops
    with the panic `makeslice: len out of range` (as it does without the token). -/
theorem ReadPBM_ignores_trailing_counterexample :
    ScanWords "P1 0 9223372036854775807".data [] = ["P1", "0", "9223372036854775807"] ∧
    ScanWords "P1 0 9223372036854775807 1".data []
      = ["P1", "0", "9223372036854775807"] ++ ["1"] ∧
    decimalValue "0" = some 0 ∧
    decimalValue "9223372036854775807" = some 9223372036854775807 ∧
    ReadPBM ampleMemory (singleFile "P1 0 9223372036854775807 1") "image.pbm"
      = .error .makeslicePanic ∧
    ReadPBM ampleMemory (singleFile "P1 0 9223372036854775807") "image.pbm"
      = .error .makeslicePanic :=
  ⟨by rfl, by rfl, by rfl, by rfl, by rfl, by rfl⟩

/-- C20, amended: when the file holds a header with the `int` values `w ≥ 0` and `h ≥ 0`,
    exactly `w*h` pixel tokens and then any further tokens (the header and pixel tokens
    fitting the scanner's buffer), `ReadPBM` returns what it returns on the file without
    the further tokens: the result is determined by the first `3 + w*h` tokens.  When the
    grid can be allocated (`24*h` and `w` bytes within `maxAlloc`, and the heap provides
    the slices) both succeed with the same bitmap. -/
theorem ReadPBM_ignores_trailing (mem : Memory) (fs1 fs2 : FileSystem)
    (filename c1 c2 t0 t1 t2 : String)
    (pixels extra : List String) (w h : Int)
    (hopen1 : fs1.content "image.pbm" = some c1)
    (hopen2 : fs2.content "image.pbm" = some c2)
    (htoks1 : ScanWords c1.data [] = t0 :: t1 :: t2 :: pixels)
    (htoks2 : ScanWords c2.data [] = t0 :: t1 :: t2 :: (pixels ++ extra))
    (hfit1 : tokensFit (3 + pixels.length) c1 = true)
    (hfit2 : tokensFit (3 + pixels.length) c2 = true)
    (hw : decimalValue t1 = some w) (hh : decimalValue t2 = some h)
    (hw0 : 0 ≤ w) (hh0 : 0 ≤ h) (hwr : w < 2 ^ 63) (hhr : h < 2 ^ 63)
    (hlen : (pixels.length : Int) = w * h) :
    ReadPBM mem fs1 filename = ReadPBM mem fs2 filename ∧
    (gridAllocated mem w h = true →
      ∃ b, ReadPBM mem fs1 filename = .ok b ∧ ReadPBM mem fs2 filename = .ok b) := by
  have hAw := Atoi_of_decimalValue hw (by omega) hwr
  have hAh := Atoi_of_decimalValue hh (by omega) hhr
  have hlenN : pixels.length = w.toNat * h.toNat := by
    have e1 : w = (w.toNat : Int) := (Int.toNat_of_nonneg hw0).symm
    have e2 : h = (h.toNat : Int) := (Int.toNat_of_nonneg hh0).symm
    rw [e1, e2] at hlen
    exact_mod_cast hlen
  have hok : gridAllocated mem w h = true →
      ReadPBM mem fs1 filename = .ok ⟨gridOfTokens w.toNat h.toNat pixels, w, h, t0⟩ ∧
      ReadPBM mem fs2 filename = .ok ⟨gridOfTokens w.toNat h.toNat pixels, w, h, t0⟩ := by
    intro halloc
    refine ⟨ReadPBM_header mem fs1 filename c1 t0 t1 t2 pixels pixels w h pixels.length
      hopen1 htoks1 hfit1 (fun i _ => Or.inr (Nat.le_refl _)) (fun i _ => rfl) hAw hAh halloc,
      ReadPBM_header mem fs2 filename c2 t0 t1 t2 (pixels ++ extra) pixels w h pixels.length
      hopen2 htoks2 hfit2 (fun i hi => Or.inl (by omega))
      (fun i hi => List.getD_append _ _ _ _ (by omega)) hAw hAh halloc⟩
  refine ⟨?_, fun halloc => ⟨_, (hok halloc).1, (hok halloc).2⟩⟩
  by_cases halloc : gridAllocated mem w h = true
  · rw [(hok halloc).1, (hok halloc).2]
  · have hfalse : gridAllocated mem w h = false := by simpa using halloc
    obtain ⟨toks1, hr1, _, a1, a2⟩ := ReadPBM_header_texts mem fs1 filename c1 t0 t1 t2 pixels
      hopen1 htoks1 (tokensFit_mono _ 3 c1 (by omega) hfit1)
    obtain ⟨toks2, hr2, _, b1, b2⟩ := ReadPBM_header_texts mem fs2 filename c2 t0 t1 t2
      (pixels ++ extra) hopen2 htoks2 (tokensFit_mono _ 3 c2 (by omega) hfit2)
    rw [hr1, hr2]
    exact parseTokens_header_congr mem toks1 toks2 w h (by rw [a1, b1]) (by rw [a2, b2])
      (by rw [a1]; exact hAw) (by rw [a2]; exact hAh) hfalse

/-- Witness for the amended C20: the 3x2 example file followed by the tokens
    `1 1 junk`. -/
theorem ReadPBM_ignores_trailing_witness :
    ∃ b, ReadPBM ampleMemory (singleFile "P1\n3 2\n1 0 1\n0 1 0\n") "image.pbm" = .ok b ∧
      ReadPBM ampleMemory (singleFile "P1\n3 2\n1 0 1\n0 1 0\n1 1 junk\n") "image.pbm"
        = .ok b :=
  (ReadPBM_ignores_trailing ampleMemory (singleFile "P1\n3 2\n1 0 1\n0 1 0\n")
    (singleFile "P1\n3 2\n1 0 1\n0 1 0\n1 1 junk\n") "image.pbm"
    "P1\n3 2\n1 0 1\n0 1 0\n" "P1\n3 2\n1 0 1\n0 1 0\n1 1 junk\n" "P1" "3" "2"
    ["1", "0", "1", "0", "1", "0"] ["1", "1", "junk"] 3 2 rfl rfl (by rfl) (by rfl) (by rfl)
    (by rfl) (by rfl) (by rfl) (by decide) (by decide) (by decide) (by decide)
    (by decide)).2 (by rfl)

end Netpbm
